import Mathlib

/-!
Verification of boostedblob's deletion and read modules
(`boostedblob/delete.py`, `boostedblob/read.py`) and of its directory
synchronization engine.  The synchronization module itself
(`boostedblob/syncing.py`) is not part of the source tree provided here;
only its test (`tests/test_syncing.py`) is, so the sync definitions below
are modelled from the specification, checked against the expectations the
repository's own test asserts.

Machine integers do not occur: sizes, times and HTTP status codes are
Python ints, embedded as `Nat`; byte-range arithmetic in `read.py` is
embedded over `Nat`/`Int` exactly as the source computes it.
-/

namespace Boostedblob

/-- Lexicographic comparison of two character lists by code point.  This is
the order Python's string comparison (and hence `sorted` over relative
paths) uses, embedded executably so that sorting and merge-join steps
reduce on concrete inputs. -/
def strLtB : List Char → List Char → Bool
  | [], [] => false
  | [], _ :: _ => true
  | _ :: _, [] => false
  | a :: as, b :: bs =>
    if a.toNat < b.toNat then true
    else if b.toNat < a.toNat then false
    else strLtB as bs

/-- Strict lexicographic order on relative path strings, as Python compares
them. -/
def pathLt (a b : String) : Bool := strLtB a.data b.data

/-- One file found during a tree listing: relative path (slash separated),
size in bytes and modification time.  `listtree`/`scantree` produce these;
the sync engine consumes one per file.  The directory flag is omitted:
directories are never independently diffed, so only file entries matter
here. -/
structure DirEntry where
  relpath : String
  size : Nat
  mtime : Nat
deriving DecidableEq

/-- Modelled from the spec: the two diff actions of the missing
`boostedblob/syncing.py`, with the constructor and field names the
repository's test uses (`CopyAction(relpath, size)`,
`DeleteAction(relpath)`). -/
inductive SyncAction where
  | CopyAction (relpath : String) (size : Nat)
  | DeleteAction (relpath : String)
deriving DecidableEq

/-- The relative path an action reconciles, as the test's
`key=lambda x: x.relpath` reads it. -/
def SyncAction.relpath : SyncAction → String
  | .CopyAction p _ => p
  | .DeleteAction p => p

/-- Modelled from the spec: the per-path comparison of the missing
`boostedblob/syncing.py`.  The spec's §4.3 text says size only, but the
repository's own test (`tests/test_syncing.py`) rewrites `delta/f9` with
different content of the same four bytes and then asserts
`CopyAction("delta/f9", 4)` is produced, and its comment about mtime
accuracy ("if we run sync too soon ... we end up syncing more than what we
need") confirms modification times participate; spec §9 likewise records
"mtime used at most as a hint".  So a pair of entries differs when the
sizes differ or the source is strictly newer. -/
def changed (s d : DirEntry) : Bool := s.size != d.size || d.mtime < s.mtime

/-- Non-strict path order on entries, used to sort each tree listing by
relative path before the merge-join. -/
def entryLe (a b : DirEntry) : Prop := pathLt b.relpath a.relpath = false

instance : DecidableRel entryLe := fun a b => by
  unfold entryLe
  infer_instance

/-- Strict path order on entries; sorted listings with distinct paths are
pairwise in this order. -/
def entryLt (a b : DirEntry) : Prop := pathLt a.relpath b.relpath = true

/-- A tree listing lists each relative path at most once. -/
def pathsNodup (t : List DirEntry) : Prop := (t.map DirEntry.relpath).Nodup

/-- Modelled from the spec: each tree's lazy listing arrives in no
guaranteed order and is sorted by relative path before the merge-join. -/
def sortTree (t : List DirEntry) : List DirEntry := List.insertionSort entryLe t

/-- Modelled from the spec: the merge-join of the two sorted listings
(§4.3), fuelled so that the double recursion is structural and reduces on
concrete inputs.  Path only in source → copy; path only in destination →
delete (the iterator itself carries no delete flag: the repository's test
calls `sync_iterator(any_dir, other_any_dir)` with no such argument and
still receives `DeleteAction("f2")`, the driver being the place where
delete semantics are decided); path in both → copy exactly when `changed`
holds. -/
def mergeF : Nat → List DirEntry → List DirEntry → List SyncAction
  | 0, _, _ => []
  | _ + 1, [], [] => []
  | n + 1, s :: ss, [] => SyncAction.CopyAction s.relpath s.size :: mergeF n ss []
  | n + 1, [], d :: ds => SyncAction.DeleteAction d.relpath :: mergeF n [] ds
  | n + 1, s :: ss, d :: ds =>
    if s.relpath = d.relpath then
      (if changed s d then [SyncAction.CopyAction s.relpath s.size] else []) ++ mergeF n ss ds
    else if pathLt s.relpath d.relpath = true then
      SyncAction.CopyAction s.relpath s.size :: mergeF n ss (d :: ds)
    else
      SyncAction.DeleteAction d.relpath :: mergeF n (s :: ss) ds

/-- The merge-join at adequate fuel: each step consumes at least one entry,
so the summed length suffices. -/
def mergeDiff (ss ds : List DirEntry) : List SyncAction :=
  mergeF (ss.length + ds.length) ss ds

/-- Modelled from the spec: `sync_iterator` of the missing
`boostedblob/syncing.py` — sort both listings by relative path and
merge-join them into the action sequence. -/
def sync_iterator (src dst : List DirEntry) : List SyncAction :=
  mergeDiff (sortTree src) (sortTree dst)

/-- Modelled from the spec: the actions the sync driver `sync` executes.
`CopyAction`s always; a `DeleteAction` only when delete semantics are
requested (`sync(src, dst, executor, delete=...)` — the flag belongs to the
driver). -/
def sync_actions (src dst : List DirEntry) (del : Bool) : List SyncAction :=
  (sync_iterator src dst).filter fun a =>
    match a with
    | SyncAction.CopyAction _ _ => true
    | SyncAction.DeleteAction _ => del

/-- Modelled from the spec: effect of one executed action on the
destination tree.  A copy overwrites (or creates) the destination file with
the source's size, stamped with the wall-clock time `now` of the write; a
delete removes the destination file. -/
def applyAction (now : Nat) (t : List DirEntry) : SyncAction → List DirEntry
  | SyncAction.CopyAction p sz =>
    t.filter (fun e => !(e.relpath == p)) ++ [⟨p, sz, now⟩]
  | SyncAction.DeleteAction p => t.filter fun e => !(e.relpath == p)

/-- Apply a list of actions to a destination tree, in order. -/
def applyActions (now : Nat) (t : List DirEntry) (acts : List SyncAction) : List DirEntry :=
  acts.foldl (applyAction now) t

/-- Modelled from the spec: one whole `sync` session — diff, filter by the
delete flag, apply.  Returns the resulting destination tree. -/
def apply_sync (src dst : List DirEntry) (del : Bool) (now : Nat) : List DirEntry :=
  applyActions now dst (sync_actions src dst del)

/-- Modelled from the spec: the completed relative paths `sync` yields for
progress observation, one per executed action. -/
def sync_paths (src dst : List DirEntry) (del : Bool) : List String :=
  (sync_actions src dst del).map SyncAction.relpath

/-- The (path, size) view of a tree, canonically ordered, for stating what
a sync run must achieve. -/
def pathSizeSet (t : List DirEntry) : List (String × Nat) :=
  (sortTree t).map fun e => (e.relpath, e.size)

/-- The source tree of `tests/test_syncing.py` at the point of the
`sync_iterator` assertion: `f2` has been removed and `delta/f9` rewritten
(four bytes `ABCD` in place of four bytes `1234`, so the size is unchanged
while the modification time is newer).  Files whose content the test does
not pin down are given size 1; original files carry mtime 0, the rewritten
`delta/f9` mtime 2. -/
def testSrc : List DirEntry :=
  [⟨"f1", 1, 0⟩, ⟨"f3", 1, 0⟩, ⟨"alpha/f4", 1, 0⟩, ⟨"alpha/f5", 1, 0⟩,
   ⟨"alpha/beta/f6", 1, 0⟩, ⟨"alpha/beta/f7", 1, 0⟩,
   ⟨"alpha/beta/gamma/f8", 1, 0⟩, ⟨"delta/f9", 4, 2⟩,
   ⟨"delta/epsilon/f10", 1, 0⟩]

/-- The destination tree of `tests/test_syncing.py` at the same point: the
copies made by the first sync run, all ten files, stamped at copy time
(mtime 1), `delta/f9` still the four-byte `1234`. -/
def testDst : List DirEntry :=
  [⟨"f1", 1, 1⟩, ⟨"f2", 1, 1⟩, ⟨"f3", 1, 1⟩, ⟨"alpha/f4", 1, 1⟩,
   ⟨"alpha/f5", 1, 1⟩, ⟨"alpha/beta/f6", 1, 1⟩, ⟨"alpha/beta/f7", 1, 1⟩,
   ⟨"alpha/beta/gamma/f8", 1, 1⟩, ⟨"delta/f9", 4, 1⟩,
   ⟨"delta/epsilon/f10", 1, 1⟩]

/-- Events observable at the deletion boundary of `rmtree_iterator`
(`boostedblob/delete.py`): the `remove` primitive being invoked on an
entry, and the entry being yielded to the consumer. -/
inductive RmEvent (P : Type) where
  | removeCall (p : P)
  | yieldPath (p : P)
deriving DecidableEq

/-- What consuming `executor.map_unordered(remove_wrapper, ...)` inside
`rmtree_iterator` produces: the event trace, the yielded paths, and the
entry whose `remove` failed, if any. -/
structure RmRun (P : Type) where
  trace : List (RmEvent P)
  yielded : List P
  failed : Option P
deriving DecidableEq

/-- The unordered mapping of `remove_wrapper` over the tree listing, in
completion order: each completing task has invoked `remove` on its entry
and then yields that entry; the first failing `remove` fails the whole
call (fail-fast), after which nothing further is yielded. -/
def runRemoves {P : Type} (removeOk : P → Bool) : List P → RmRun P
  | [] => ⟨[], [], none⟩
  | e :: rest =>
    if removeOk e then
      let r := runRemoves removeOk rest
      ⟨RmEvent.removeCall e :: RmEvent.yieldPath e :: r.trace, e :: r.yielded, r.failed⟩
    else ⟨[RmEvent.removeCall e], [], some e⟩

/-- The errors `rmtree_iterator` can surface: its own secondary-check
errors (`FileNotFoundError`, `NotADirectoryError`) and a propagated task
failure from a `remove` call. -/
inductive RmtreeError (P : Type) where
  | fileNotFound (p : P)
  | notADirectory (p : P)
  | removeFailed (p : P)
deriving DecidableEq

/-- One full run of `rmtree_iterator`: trace, yielded paths, whether the
secondary `isfile` check was issued, and the terminal error if any. -/
structure RmtreeRun (P : Type) where
  trace : List (RmEvent P)
  yielded : List P
  isfileCalled : Bool
  error : Option (RmtreeError P)
deriving DecidableEq

/-- `rmtree_iterator` from `boostedblob/delete.py`: consume the unordered
removal of every listed entry, yielding each deleted path; `subpath_exists`
is set as soon as any task starts, so after a clean pass over an empty
listing — and only then — the secondary `isfile(path)` check runs to pick
between `FileNotFoundError` and `NotADirectoryError`.  `completion` is the
tree listing of `path.ensure_directory_like()` in the order the executor
completes the removals; `isfile` and `removeOk` abstract the backend
primitives. -/
def rmtree_iterator {P : Type} (path : P) (completion : List P)
    (isfile removeOk : P → Bool) : RmtreeRun P :=
  let r := runRemoves removeOk completion
  match r.failed with
  | some e => ⟨r.trace, r.yielded, false, some (RmtreeError.removeFailed e)⟩
  | none =>
    if completion.isEmpty then
      if !(isfile path) then ⟨r.trace, r.yielded, true, some (RmtreeError.fileNotFound path)⟩
      else ⟨r.trace, r.yielded, true, some (RmtreeError.notADirectory path)⟩
    else ⟨r.trace, r.yielded, false, none⟩

/-- The event trace of a clean (all removes succeed) unordered pass, two
events per completed entry. -/
def cleanTrace {P : Type} (l : List P) : List (RmEvent P) :=
  l.flatMap fun e => [RmEvent.removeCall e, RmEvent.yieldPath e]

/-- Outcome of one cloud `remove` call. -/
inductive RemoveOutcome where
  | ok
  | isADirectoryError
  | fileNotFoundError
  | requestFailed (status : Nat)
deriving DecidableEq

/-- One cloud `remove` run: whether a DELETE request reached the backend,
and how the call ended. -/
structure RemoveRun where
  requestSent : Bool
  outcome : RemoveOutcome
deriving DecidableEq

/-- `_azure_remove` from `boostedblob/delete.py`: a directory-like path
raises `IsADirectoryError` before any request is built; otherwise a DELETE
request is executed whose success code is 202 and whose 404 is mapped to
`FileNotFoundError`.  `status` is the backend's response status. -/
def _azure_remove (dirlike : Bool) (status : Nat) : RemoveRun :=
  if dirlike then ⟨false, RemoveOutcome.isADirectoryError⟩
  else if status = 202 then ⟨true, RemoveOutcome.ok⟩
  else if status = 404 then ⟨true, RemoveOutcome.fileNotFoundError⟩
  else ⟨true, RemoveOutcome.requestFailed status⟩

/-- `_google_remove` from `boostedblob/delete.py`: as `_azure_remove`, with
success code 204. -/
def _google_remove (dirlike : Bool) (status : Nat) : RemoveRun :=
  if dirlike then ⟨false, RemoveOutcome.isADirectoryError⟩
  else if status = 204 then ⟨true, RemoveOutcome.ok⟩
  else if status = 404 then ⟨true, RemoveOutcome.fileNotFoundError⟩
  else ⟨true, RemoveOutcome.requestFailed status⟩

/-- Python's `range(start, stop, step)` for a positive step, as
`boostedblob/read.py` uses it. -/
def rangeStep (start stop step : Nat) : List Nat :=
  (List.range ((stop - start + step - 1) / step)).map fun i => start + i * step

/-- `itertools.zip_longest` over two number sequences with a numeric
`fillvalue`, restructured to recurse on the first list only so that it
reduces on concrete inputs: the element at each index pairs the entries of
both lists, the fill value standing in for the exhausted one. -/
def zipLongest (fill : Nat) : List Nat → List Nat → List (Nat × Nat)
  | [], ys => ys.map fun y => (fill, y)
  | x :: xs, ys => (x, ys.headD fill) :: zipLongest fill xs ys.tail

/-- The byte ranges both cloud read streams build:
`zip_longest(range(0, size, chunk), range(chunk, size, chunk),
fillvalue=size)`. -/
def byteRanges (size chunk : Nat) : List (Nat × Nat) :=
  zipLongest size (rangeStep 0 size chunk) (rangeStep chunk size chunk)

/-- The byte ranges `_cloud_read_stream` (`boostedblob/read.py`) passes to
`executor.map_ordered`, with `chunk = config.chunk_size`. -/
def _cloud_read_stream_ranges (size chunk : Nat) : List (Nat × Nat) :=
  byteRanges size chunk

/-- The byte ranges `read_stream_unordered` (`boostedblob/read.py`) passes
to `executor.map_unordered`; the same expression as in
`_cloud_read_stream`. -/
def read_stream_unordered_ranges (size chunk : Nat) : List (Nat × Nat) :=
  byteRanges size chunk

/-- `_byte_range_to_str` from `boostedblob/read.py`, on
`Tuple[Optional[int], Optional[int]]`; `none` as the result stands for the
final `raise AssertionError`. -/
def _byte_range_to_str : Option Int × Option Int → Option String
  | (some s, some e) => some ("bytes=" ++ toString s ++ "-" ++ toString (e - 1))
  | (some s, none) => some ("bytes=" ++ toString s ++ "-")
  | (none, some e) =>
    if 0 < e then some ("bytes=0-" ++ toString (e - 1))
    else some ("bytes=-" ++ toString (-e))
  | (none, none) => none

theorem strLtB_irrefl : ∀ l : List Char, strLtB l l = false := by
  intro l
  induction l with
  | nil => rfl
  | cons a as ih => simp [strLtB, ih]

theorem strLtB_asymm : ∀ {a b : List Char}, strLtB a b = true → strLtB b a = false := by
  intro a
  induction a with
  | nil =>
    intro b h
    cases b with
    | nil => simpa [strLtB] using h
    | cons y bs => simp [strLtB]
  | cons x as ih =>
    intro b h
    cases b with
    | nil => simpa [strLtB] using h
    | cons y bs =>
      simp only [strLtB] at h ⊢
      split_ifs at h ⊢ with h1 h2 h3 h4 <;> first
        | rfl
        | omega
        | (exact ih h)
        | (exact absurd h (by simp))

theorem strLtB_trans : ∀ {a b c : List Char},
    strLtB a b = true → strLtB b c = true → strLtB a c = true := by
  intro a
  induction a with
  | nil =>
    intro b c h1 h2
    cases b with
    | nil => simpa [strLtB] using h1
    | cons y bs =>
      cases c with
      | nil => simpa [strLtB] using h2
      | cons z cs => simp [strLtB]
  | cons x as ih =>
    intro b c h1 h2
    cases b with
    | nil => simpa [strLtB] using h1
    | cons y bs =>
      cases c with
      | nil => simpa [strLtB] using h2
      | cons z cs =>
        simp only [strLtB] at h1 h2 ⊢
        split_ifs at h1 h2 ⊢ with h3 h4 h5 h6 h7 h8 <;> first
          | rfl
          | omega
          | (exact ih h1 h2)
          | (exact absurd h1 (by simp))
          | (exact absurd h2 (by simp))

theorem strLtB_eq_of_false : ∀ {a b : List Char},
    strLtB a b = false → strLtB b a = false → a = b := by
  intro a
  induction a with
  | nil =>
    intro b h1 _
    cases b with
    | nil => rfl
    | cons y bs => simp [strLtB] at h1
  | cons x as ih =>
    intro b h1 h2
    cases b with
    | nil => simp [strLtB] at h2
    | cons y bs =>
      simp only [strLtB] at h1 h2
      split_ifs at h1 h2 with h3 h4 <;> try omega
      have hxy : x = y := by
        apply Char.ext
        apply UInt32.ext
        simp only [Char.toNat] at h3 h4
        omega
      have : as = bs := ih h1 h2
      rw [hxy, this]

theorem pathLt_irrefl (a : String) : pathLt a a = false := strLtB_irrefl a.data

theorem pathLt_asymm {a b : String} (h : pathLt a b = true) : pathLt b a = false :=
  strLtB_asymm h

theorem pathLt_trans {a b c : String} (h1 : pathLt a b = true) (h2 : pathLt b c = true) :
    pathLt a c = true := strLtB_trans h1 h2

theorem pathLt_eq_of_false {a b : String} (h1 : pathLt a b = false)
    (h2 : pathLt b a = false) : a = b :=
  String.ext (strLtB_eq_of_false h1 h2)

theorem pathLt_of_false_of_ne {a b : String} (h1 : pathLt a b = false) (h2 : a ≠ b) :
    pathLt b a = true := by
  cases h3 : pathLt b a with
  | true => rfl
  | false => exact absurd (pathLt_eq_of_false h1 h3) h2

theorem pathLt_ne {a b : String} (h : pathLt a b = true) : a ≠ b := by
  intro he
  rw [he] at h
  rw [pathLt_irrefl] at h
  exact Bool.noConfusion h

theorem entryLe_total : ∀ a b : DirEntry, entryLe a b ∨ entryLe b a := by
  intro a b
  unfold entryLe
  cases h : pathLt b.relpath a.relpath with
  | false => exact Or.inl rfl
  | true => exact Or.inr (pathLt_asymm h)

theorem entryLe_trans : ∀ a b c : DirEntry, entryLe a b → entryLe b c → entryLe a c := by
  intro a b c hab hbc
  unfold entryLe at hab hbc ⊢
  cases h : pathLt c.relpath a.relpath with
  | false => rfl
  | true =>
    exfalso
    by_cases hba : b.relpath = a.relpath
    · rw [← hba] at h
      rw [h] at hbc
      exact Bool.noConfusion hbc
    · have hab2 : pathLt a.relpath b.relpath = true := pathLt_of_false_of_ne hab hba
      have hcb : pathLt c.relpath b.relpath = true := pathLt_trans h hab2
      rw [hcb] at hbc
      exact Bool.noConfusion hbc

theorem sortTree_perm (t : List DirEntry) : (sortTree t).Perm t :=
  List.perm_insertionSort entryLe t

theorem sortTree_sorted (t : List DirEntry) : List.Sorted entryLe (sortTree t) := by
  letI : IsTotal DirEntry entryLe := ⟨entryLe_total⟩
  letI : IsTrans DirEntry entryLe := ⟨entryLe_trans⟩
  exact List.sorted_insertionSort entryLe t

theorem sortTree_pathsNodup {t : List DirEntry} (h : pathsNodup t) :
    pathsNodup (sortTree t) := by
  unfold pathsNodup at h ⊢
  exact h.perm ((sortTree_perm t).map DirEntry.relpath).symm

theorem pairwise_entryLt_of_sorted_nodup {l : List DirEntry}
    (hs : List.Sorted entryLe l) (hn : pathsNodup l) : List.Pairwise entryLt l := by
  unfold pathsNodup at hn
  have hn2 : List.Pairwise (fun a b : DirEntry => a.relpath ≠ b.relpath) l :=
    List.pairwise_map.mp hn
  refine (hs.and hn2).imp ?_
  rintro a b ⟨hle, hne⟩
  unfold entryLe at hle
  unfold entryLt
  exact pathLt_of_false_of_ne hle fun he => hne he.symm

theorem sortTree_pairwise {t : List DirEntry} (h : pathsNodup t) :
    List.Pairwise entryLt (sortTree t) :=
  pairwise_entryLt_of_sorted_nodup (sortTree_sorted t) (sortTree_pathsNodup h)

theorem entry_eq_of_same_path : ∀ {t : List DirEntry}, pathsNodup t →
    ∀ {e e' : DirEntry}, e ∈ t → e' ∈ t → e.relpath = e'.relpath → e = e' := by
  intro t
  induction t with
  | nil => intro _ e e' he; simp at he
  | cons a l ih =>
    intro h e e' he he' hp
    unfold pathsNodup at h
    rw [List.map_cons, List.nodup_cons] at h
    obtain ⟨hna, hnl⟩ := h
    rcases List.mem_cons.mp he with h1 | h1
    · rcases List.mem_cons.mp he' with h2 | h2
      · rw [h1, h2]
      · exfalso
        apply hna
        rw [← h1, hp]
        exact List.mem_map_of_mem DirEntry.relpath h2
    · rcases List.mem_cons.mp he' with h2 | h2
      · exfalso
        apply hna
        rw [← h2, ← hp]
        exact List.mem_map_of_mem DirEntry.relpath h1
      · exact ih hnl h1 h2 hp

theorem mergeF_copy_mem : ∀ (n : Nat) (ss ds : List DirEntry),
    ss.length + ds.length ≤ n →
    List.Pairwise entryLt ss → List.Pairwise entryLt ds →
    ∀ (p : String) (sz : Nat),
      (SyncAction.CopyAction p sz ∈ mergeF n ss ds ↔
        ∃ s ∈ ss, s.relpath = p ∧ s.size = sz ∧
          ∀ d ∈ ds, d.relpath = p → changed s d = true) := by
  intro n ss ds
  induction n, ss, ds using mergeF.induct with
  | case1 ss ds =>
    intro hn _ _ p sz
    cases ss with
    | nil => simp [mergeF]
    | cons a l =>
      rw [List.length_cons] at hn
      omega
  | case2 n =>
    intro _ _ _ p sz
    simp [mergeF]
  | case3 n s ss ih =>
    intro hn hss _ p sz
    obtain ⟨hsh, hst⟩ := List.pairwise_cons.mp hss
    have ihx := ih (by rw [List.length_cons] at hn; omega) hst List.Pairwise.nil p sz
    have hstep : mergeF (n + 1) (s :: ss) [] =
        SyncAction.CopyAction s.relpath s.size :: mergeF n ss [] := by
      rw [mergeF]
    rw [hstep, List.mem_cons]
    constructor
    · rintro (he | hm)
      · injection he with hp hsz
        exact ⟨s, List.mem_cons_self s ss, hp.symm, hsz.symm,
          fun d hd => absurd hd (List.not_mem_nil d)⟩
      · obtain ⟨s', hs', hrel, hsz, _⟩ := ihx.mp hm
        exact ⟨s', List.mem_cons_of_mem s hs', hrel, hsz, fun d hd => absurd hd (List.not_mem_nil d)⟩
    · rintro ⟨s', hs', hrel, hsz, _⟩
      rcases List.mem_cons.mp hs' with h1 | h1
      · left
        rw [← hrel, ← hsz, h1]
      · right
        exact ihx.mpr ⟨s', h1, hrel, hsz, fun d hd => absurd hd (List.not_mem_nil d)⟩
  | case4 n d ds ih =>
    intro hn _ hds p sz
    obtain ⟨hdh, hdt⟩ := List.pairwise_cons.mp hds
    have ihx := ih (by rw [List.length_cons] at hn; omega) List.Pairwise.nil hdt p sz
    have hstep : mergeF (n + 1) ([] : List DirEntry) (d :: ds) =
        SyncAction.DeleteAction d.relpath :: mergeF n [] ds := by
      rw [mergeF]
    rw [hstep, List.mem_cons]
    constructor
    · rintro (he | hm)
      · exact absurd he (by simp)
      · obtain ⟨s', hs', _⟩ := ihx.mp hm
        exact absurd hs' (List.not_mem_nil s')
    · rintro ⟨s', hs', _⟩
      exact absurd hs' (List.not_mem_nil s')
  | case5 n s ss d ds heq ih =>
    intro hn hss hds p sz
    obtain ⟨hsh, hst⟩ := List.pairwise_cons.mp hss
    obtain ⟨hdh, hdt⟩ := List.pairwise_cons.mp hds
    have ihx := ih (by rw [List.length_cons, List.length_cons] at hn; omega) hst hdt p sz
    have hstep : mergeF (n + 1) (s :: ss) (d :: ds) =
        (if changed s d then [SyncAction.CopyAction s.relpath s.size] else []) ++
          mergeF n ss ds := by
      rw [mergeF, if_pos heq]
    rw [hstep]
    constructor
    · intro hm
      rcases List.mem_append.mp hm with hl | hr
      · rw [apply_ite (SyncAction.CopyAction p sz ∈ ·)] at hl
        by_cases hch : changed s d = true
        · rw [if_pos hch] at hl
          rw [List.mem_singleton] at hl
          injection hl with hp1 hsz1
          refine ⟨s, List.mem_cons_self s ss, hp1.symm, hsz1.symm, ?_⟩
          intro d' hd' hpd'
          rcases List.mem_cons.mp hd' with h1 | h1
          · rw [h1]
            exact hch
          · exfalso
            have hlt : pathLt d.relpath d'.relpath = true := hdh d' h1
            have hx : d'.relpath = d.relpath := by rw [hpd', hp1]; exact heq
            exact pathLt_ne hlt hx.symm
        · rw [if_neg hch] at hl
          exact absurd hl (List.not_mem_nil _)
      · obtain ⟨s', hs', hrel, hsz, hall⟩ := ihx.mp hr
        refine ⟨s', List.mem_cons_of_mem s hs', hrel, hsz, ?_⟩
        intro d' hd' hpd'
        rcases List.mem_cons.mp hd' with h1 | h1
        · exfalso
          have hlt : pathLt s.relpath s'.relpath = true := hsh s' hs'
          have : s'.relpath = s.relpath := by rw [hrel, ← hpd', h1, ← heq]
          exact pathLt_ne hlt this.symm
        · exact hall d' h1 hpd'
    · rintro ⟨s', hs', hrel, hsz, hall⟩
      rcases List.mem_cons.mp hs' with h1 | h1
      · have hch : changed s d = true := by
          have := hall d (List.mem_cons_self d ds) (by rw [← heq, ← h1, hrel])
          rw [h1] at this
          exact this
        apply List.mem_append.mpr
        left
        rw [if_pos hch, List.mem_singleton, ← hrel, ← hsz, h1]
      · apply List.mem_append.mpr
        right
        refine ihx.mpr ⟨s', h1, hrel, hsz, fun d' hd' hpd' => hall d' (List.mem_cons_of_mem d hd') hpd'⟩
  | case6 n s ss d ds hne hlt ih =>
    intro hn hss hds p sz
    obtain ⟨hsh, hst⟩ := List.pairwise_cons.mp hss
    obtain ⟨hdh, hdt⟩ := List.pairwise_cons.mp hds
    have ihx := ih
      (by simp only [List.length_cons] at hn; simp only [List.length_cons]; omega) hst hds p sz
    have hstep : mergeF (n + 1) (s :: ss) (d :: ds) =
        SyncAction.CopyAction s.relpath s.size :: mergeF n ss (d :: ds) := by
      rw [mergeF, if_neg hne, if_pos hlt]
    rw [hstep]
    rw [List.mem_cons]
    constructor
    · rintro (he | hm)
      · injection he with hp hsz
        refine ⟨s, List.mem_cons_self s ss, hp.symm, hsz.symm, ?_⟩
        intro d' hd' hpd'
        exfalso
        rcases List.mem_cons.mp hd' with h1 | h1
        · rw [h1] at hpd'
          exact hne (by rw [← hp]; exact hpd'.symm)
        · have hlt2 : pathLt s.relpath d'.relpath = true := pathLt_trans hlt (hdh d' h1)
          exact pathLt_ne hlt2 (by rw [← hp]; exact hpd'.symm)
      · obtain ⟨s', hs', hrel, hsz, hall⟩ := ihx.mp hm
        exact ⟨s', List.mem_cons_of_mem s hs', hrel, hsz, hall⟩
    · rintro ⟨s', hs', hrel, hsz, hall⟩
      rcases List.mem_cons.mp hs' with h1 | h1
      · left
        rw [← hrel, ← hsz, h1]
      · right
        exact ihx.mpr ⟨s', h1, hrel, hsz, hall⟩
  | case7 n s ss d ds hne hnlt ih =>
    intro hn hss hds p sz
    obtain ⟨hdh, hdt⟩ := List.pairwise_cons.mp hds
    have hlf : pathLt s.relpath d.relpath = false := by
      cases h : pathLt s.relpath d.relpath with
      | false => rfl
      | true => exact absurd h hnlt
    have hdl : pathLt d.relpath s.relpath = true := pathLt_of_false_of_ne hlf hne
    have ihx := ih
      (by simp only [List.length_cons] at hn; simp only [List.length_cons]; omega) hss hdt p sz
    have hstep : mergeF (n + 1) (s :: ss) (d :: ds) =
        SyncAction.DeleteAction d.relpath :: mergeF n (s :: ss) ds := by
      rw [mergeF, if_neg hne, if_neg hnlt]
    rw [hstep]
    rw [List.mem_cons]
    have hdnotp : ∀ s' ∈ s :: ss, s'.relpath = p → d.relpath ≠ p := by
      intro s' hs' hrel
      rcases List.mem_cons.mp hs' with h1 | h1
      · rw [h1] at hrel
        rw [← hrel]
        exact fun h => hne h.symm
      · intro hdp
        have hlt2 : pathLt d.relpath s'.relpath = true :=
          pathLt_trans hdl ((List.pairwise_cons.mp hss).1 s' h1)
        exact pathLt_ne hlt2 (by rw [hdp, ← hrel])
    constructor
    · rintro (he | hm)
      · exact absurd he (by simp)
      · obtain ⟨s', hs', hrel, hsz, hall⟩ := ihx.mp hm
        refine ⟨s', hs', hrel, hsz, ?_⟩
        intro d' hd' hpd'
        rcases List.mem_cons.mp hd' with h1 | h1
        · exact absurd (h1 ▸ hpd') (hdnotp s' hs' hrel)
        · exact hall d' h1 hpd'
    · rintro ⟨s', hs', hrel, hsz, hall⟩
      right
      exact ihx.mpr ⟨s', hs', hrel, hsz,
        fun d' hd' hpd' => hall d' (List.mem_cons_of_mem d hd') hpd'⟩

theorem mergeF_delete_mem : ∀ (n : Nat) (ss ds : List DirEntry),
    ss.length + ds.length ≤ n →
    List.Pairwise entryLt ss → List.Pairwise entryLt ds →
    ∀ p : String,
      (SyncAction.DeleteAction p ∈ mergeF n ss ds ↔
        (∀ s ∈ ss, s.relpath ≠ p) ∧ ∃ d ∈ ds, d.relpath = p) := by
  intro n ss ds
  induction n, ss, ds using mergeF.induct with
  | case1 ss ds =>
    intro hn _ _ p
    cases ss with
    | cons a l =>
      rw [List.length_cons] at hn
      omega
    | nil =>
      cases ds with
      | cons a l =>
        rw [List.length_cons] at hn
        omega
      | nil => simp [mergeF]
  | case2 n =>
    intro _ _ _ p
    simp [mergeF]
  | case3 n s ss ih =>
    intro hn hss _ p
    obtain ⟨hsh, hst⟩ := List.pairwise_cons.mp hss
    have ihx := ih (by rw [List.length_cons] at hn; omega) hst List.Pairwise.nil p
    have hstep : mergeF (n + 1) (s :: ss) [] =
        SyncAction.CopyAction s.relpath s.size :: mergeF n ss [] := by
      rw [mergeF]
    rw [hstep, List.mem_cons]
    constructor
    · rintro (he | hm)
      · exact absurd he (by simp)
      · obtain ⟨_, d', hd', _⟩ := ihx.mp hm
        exact absurd hd' (List.not_mem_nil d')
    · rintro ⟨_, d', hd', _⟩
      exact absurd hd' (List.not_mem_nil d')
  | case4 n d ds ih =>
    intro hn _ hds p
    obtain ⟨hdh, hdt⟩ := List.pairwise_cons.mp hds
    have ihx := ih (by rw [List.length_cons] at hn; omega) List.Pairwise.nil hdt p
    have hstep : mergeF (n + 1) ([] : List DirEntry) (d :: ds) =
        SyncAction.DeleteAction d.relpath :: mergeF n [] ds := by
      rw [mergeF]
    rw [hstep, List.mem_cons]
    constructor
    · rintro (he | hm)
      · injection he with hp
        exact ⟨fun s hs => absurd hs (List.not_mem_nil s),
          d, List.mem_cons_self d ds, hp.symm⟩
      · obtain ⟨_, d', hd', hre⟩ := ihx.mp hm
        exact ⟨fun s hs => absurd hs (List.not_mem_nil s),
          d', List.mem_cons_of_mem d hd', hre⟩
    · rintro ⟨_, d', hd', hre⟩
      rcases List.mem_cons.mp hd' with h1 | h1
      · left
        rw [← hre, h1]
      · right
        exact ihx.mpr ⟨fun s hs => absurd hs (List.not_mem_nil s), d', h1, hre⟩
  | case5 n s ss d ds heq ih =>
    intro hn hss hds p
    obtain ⟨hsh, hst⟩ := List.pairwise_cons.mp hss
    obtain ⟨hdh, hdt⟩ := List.pairwise_cons.mp hds
    have ihx := ih (by rw [List.length_cons, List.length_cons] at hn; omega) hst hdt p
    have hstep : mergeF (n + 1) (s :: ss) (d :: ds) =
        (if changed s d then [SyncAction.CopyAction s.relpath s.size] else []) ++
          mergeF n ss ds := by
      rw [mergeF, if_pos heq]
    rw [hstep]
    have hite : SyncAction.DeleteAction p ∉
        (if changed s d then [SyncAction.CopyAction s.relpath s.size] else []) := by
      cases hch : changed s d <;> simp
    rw [List.mem_append]
    constructor
    · rintro (hl | hr)
      · exact absurd hl hite
      · obtain ⟨hall, d', hd', hre⟩ := ihx.mp hr
        have hsp : s.relpath ≠ p := by
          intro hsp
          have h1 : pathLt d.relpath d'.relpath = true := hdh d' hd'
          exact pathLt_ne h1 (by rw [← heq, hsp, ← hre])
        refine ⟨?_, d', List.mem_cons_of_mem d hd', hre⟩
        intro s' hs'
        rcases List.mem_cons.mp hs' with h1 | h1
        · rw [h1]
          exact hsp
        · exact hall s' h1
    · rintro ⟨hall, d', hd', hre⟩
      right
      rcases List.mem_cons.mp hd' with h1 | h1
      · exfalso
        apply hall s (List.mem_cons_self s ss)
        rw [heq, ← h1, hre]
      · exact ihx.mpr ⟨fun s' hs' => hall s' (List.mem_cons_of_mem s hs'), d', h1, hre⟩
  | case6 n s ss d ds hne hlt ih =>
    intro hn hss hds p
    obtain ⟨hsh, hst⟩ := List.pairwise_cons.mp hss
    obtain ⟨hdh, hdt⟩ := List.pairwise_cons.mp hds
    have ihx := ih
      (by simp only [List.length_cons] at hn; simp only [List.length_cons]; omega) hst hds p
    have hstep : mergeF (n + 1) (s :: ss) (d :: ds) =
        SyncAction.CopyAction s.relpath s.size :: mergeF n ss (d :: ds) := by
      rw [mergeF, if_neg hne, if_pos hlt]
    rw [hstep, List.mem_cons]
    constructor
    · rintro (he | hm)
      · exact absurd he (by simp)
      · obtain ⟨hall, d', hd', hre⟩ := ihx.mp hm
        have hsp : s.relpath ≠ p := by
          rcases List.mem_cons.mp hd' with h1 | h1
          · rw [← hre, h1]
            exact hne
          · have h2 : pathLt s.relpath d'.relpath = true := pathLt_trans hlt (hdh d' h1)
            rw [← hre]
            exact pathLt_ne h2
        refine ⟨?_, d', hd', hre⟩
        intro s' hs'
        rcases List.mem_cons.mp hs' with h1 | h1
        · rw [h1]
          exact hsp
        · exact hall s' h1
    · rintro ⟨hall, d', hd', hre⟩
      exact Or.inr (ihx.mpr ⟨fun s' hs' => hall s' (List.mem_cons_of_mem s hs'), d', hd', hre⟩)
  | case7 n s ss d ds hne hnlt ih =>
    intro hn hss hds p
    obtain ⟨hsh, hst⟩ := List.pairwise_cons.mp hss
    obtain ⟨hdh, hdt⟩ := List.pairwise_cons.mp hds
    have hlf : pathLt s.relpath d.relpath = false := by
      cases h : pathLt s.relpath d.relpath with
      | false => rfl
      | true => exact absurd h hnlt
    have hdl : pathLt d.relpath s.relpath = true := pathLt_of_false_of_ne hlf hne
    have ihx := ih
      (by simp only [List.length_cons] at hn; simp only [List.length_cons]; omega) hss hdt p
    have hstep : mergeF (n + 1) (s :: ss) (d :: ds) =
        SyncAction.DeleteAction d.relpath :: mergeF n (s :: ss) ds := by
      rw [mergeF, if_neg hne, if_neg hnlt]
    rw [hstep, List.mem_cons]
    constructor
    · rintro (he | hm)
      · injection he with hp
        refine ⟨?_, d, List.mem_cons_self d ds, hp.symm⟩
        intro s' hs'
        rw [hp]
        rcases List.mem_cons.mp hs' with h1 | h1
        · rw [h1]
          exact hne
        · have h2 : pathLt d.relpath s'.relpath = true := pathLt_trans hdl (hsh s' h1)
          exact fun h => pathLt_ne h2 h.symm
      · obtain ⟨hall, d', hd', hre⟩ := ihx.mp hm
        exact ⟨hall, d', List.mem_cons_of_mem d hd', hre⟩
    · rintro ⟨hall, d', hd', hre⟩
      rcases List.mem_cons.mp hd' with h1 | h1
      · left
        rw [← hre, h1]
      · right
        exact ihx.mpr ⟨hall, d', h1, hre⟩

theorem mergeF_path_mem : ∀ (n : Nat) (ss ds : List DirEntry),
    ∀ a ∈ mergeF n ss ds,
      (∃ s ∈ ss, s.relpath = a.relpath) ∨ ∃ d ∈ ds, d.relpath = a.relpath := by
  intro n ss ds
  induction n, ss, ds using mergeF.induct with
  | case1 ss ds =>
    intro a ha
    exact absurd ha (by simp [mergeF])
  | case2 n =>
    intro a ha
    exact absurd ha (by simp [mergeF])
  | case3 n s ss ih =>
    intro a ha
    have hstep : mergeF (n + 1) (s :: ss) [] =
        SyncAction.CopyAction s.relpath s.size :: mergeF n ss [] := by
      rw [mergeF]
    rw [hstep, List.mem_cons] at ha
    rcases ha with rfl | hm
    · exact Or.inl ⟨s, List.mem_cons_self s ss, rfl⟩
    · rcases ih a hm with ⟨s', h1, h2⟩ | ⟨d', h1, _⟩
      · exact Or.inl ⟨s', List.mem_cons_of_mem s h1, h2⟩
      · exact absurd h1 (List.not_mem_nil d')
  | case4 n d ds ih =>
    intro a ha
    have hstep : mergeF (n + 1) ([] : List DirEntry) (d :: ds) =
        SyncAction.DeleteAction d.relpath :: mergeF n [] ds := by
      rw [mergeF]
    rw [hstep, List.mem_cons] at ha
    rcases ha with rfl | hm
    · exact Or.inr ⟨d, List.mem_cons_self d ds, rfl⟩
    · rcases ih a hm with ⟨s', h1, _⟩ | ⟨d', h1, h2⟩
      · exact absurd h1 (List.not_mem_nil s')
      · exact Or.inr ⟨d', List.mem_cons_of_mem d h1, h2⟩
  | case5 n s ss d ds heq ih =>
    intro a ha
    have hstep : mergeF (n + 1) (s :: ss) (d :: ds) =
        (if changed s d then [SyncAction.CopyAction s.relpath s.size] else []) ++
          mergeF n ss ds := by
      rw [mergeF, if_pos heq]
    rw [hstep, List.mem_append] at ha
    rcases ha with hl | hr
    · cases hch : changed s d
      · rw [hch] at hl
        simp at hl
      · rw [hch] at hl
        rw [if_pos rfl, List.mem_singleton] at hl
        rw [hl]
        exact Or.inl ⟨s, List.mem_cons_self s ss, rfl⟩
    · rcases ih a hr with ⟨s', h1, h2⟩ | ⟨d', h1, h2⟩
      · exact Or.inl ⟨s', List.mem_cons_of_mem s h1, h2⟩
      · exact Or.inr ⟨d', List.mem_cons_of_mem d h1, h2⟩
  | case6 n s ss d ds hne hlt ih =>
    intro a ha
    have hstep : mergeF (n + 1) (s :: ss) (d :: ds) =
        SyncAction.CopyAction s.relpath s.size :: mergeF n ss (d :: ds) := by
      rw [mergeF, if_neg hne, if_pos hlt]
    rw [hstep, List.mem_cons] at ha
    rcases ha with rfl | hm
    · exact Or.inl ⟨s, List.mem_cons_self s ss, rfl⟩
    · rcases ih a hm with ⟨s', h1, h2⟩ | hd
      · exact Or.inl ⟨s', List.mem_cons_of_mem s h1, h2⟩
      · exact Or.inr hd
  | case7 n s ss d ds hne hnlt ih =>
    intro a ha
    have hstep : mergeF (n + 1) (s :: ss) (d :: ds) =
        SyncAction.DeleteAction d.relpath :: mergeF n (s :: ss) ds := by
      rw [mergeF, if_neg hne, if_neg hnlt]
    rw [hstep, List.mem_cons] at ha
    rcases ha with rfl | hm
    · exact Or.inr ⟨d, List.mem_cons_self d ds, rfl⟩
    · rcases ih a hm with hs | ⟨d', h1, h2⟩
      · exact Or.inl hs
      · exact Or.inr ⟨d', List.mem_cons_of_mem d h1, h2⟩

theorem mergeF_pairwise : ∀ (n : Nat) (ss ds : List DirEntry),
    ss.length + ds.length ≤ n →
    List.Pairwise entryLt ss → List.Pairwise entryLt ds →
    List.Pairwise (fun a b : SyncAction => pathLt a.relpath b.relpath = true)
      (mergeF n ss ds) := by
  intro n ss ds
  induction n, ss, ds using mergeF.induct with
  | case1 ss ds =>
    intro _ _ _
    have : mergeF 0 ss ds = [] := by rw [mergeF]
    rw [this]
    exact List.Pairwise.nil
  | case2 n =>
    intro _ _ _
    have : mergeF (n + 1) ([] : List DirEntry) [] = [] := by rw [mergeF]
    rw [this]
    exact List.Pairwise.nil
  | case3 n s ss ih =>
    intro hn hss hds
    obtain ⟨hsh, hst⟩ := List.pairwise_cons.mp hss
    have ihx := ih (by rw [List.length_cons] at hn; omega) hst hds
    have hstep : mergeF (n + 1) (s :: ss) [] =
        SyncAction.CopyAction s.relpath s.size :: mergeF n ss [] := by
      rw [mergeF]
    rw [hstep]
    refine List.pairwise_cons.mpr ⟨?_, ihx⟩
    intro b hb
    rcases mergeF_path_mem n ss [] b hb with ⟨s', h1, h2⟩ | ⟨d', h1, _⟩
    · rw [← h2]
      exact hsh s' h1
    · exact absurd h1 (List.not_mem_nil d')
  | case4 n d ds ih =>
    intro hn hss hds
    obtain ⟨hdh, hdt⟩ := List.pairwise_cons.mp hds
    have ihx := ih (by rw [List.length_cons] at hn; omega) hss hdt
    have hstep : mergeF (n + 1) ([] : List DirEntry) (d :: ds) =
        SyncAction.DeleteAction d.relpath :: mergeF n [] ds := by
      rw [mergeF]
    rw [hstep]
    refine List.pairwise_cons.mpr ⟨?_, ihx⟩
    intro b hb
    rcases mergeF_path_mem n [] ds b hb with ⟨s', h1, _⟩ | ⟨d', h1, h2⟩
    · exact absurd h1 (List.not_mem_nil s')
    · rw [← h2]
      exact hdh d' h1
  | case5 n s ss d ds heq ih =>
    intro hn hss hds
    obtain ⟨hsh, hst⟩ := List.pairwise_cons.mp hss
    obtain ⟨hdh, hdt⟩ := List.pairwise_cons.mp hds
    have ihx := ih (by rw [List.length_cons, List.length_cons] at hn; omega) hst hdt
    have hstep : mergeF (n + 1) (s :: ss) (d :: ds) =
        (if changed s d then [SyncAction.CopyAction s.relpath s.size] else []) ++
          mergeF n ss ds := by
      rw [mergeF, if_pos heq]
    have hcross : ∀ b ∈ mergeF n ss ds, pathLt s.relpath b.relpath = true := by
      intro b hb
      rcases mergeF_path_mem n ss ds b hb with ⟨s', h1, h2⟩ | ⟨d', h1, h2⟩
      · rw [← h2]
        exact hsh s' h1
      · rw [← h2, heq]
        exact hdh d' h1
    cases hch : changed s d
    · rw [hch] at hstep
      rw [if_neg Bool.false_ne_true, List.nil_append] at hstep
      rw [hstep]
      exact ihx
    · rw [hch] at hstep
      rw [if_pos rfl, List.singleton_append] at hstep
      rw [hstep]
      exact List.pairwise_cons.mpr ⟨hcross, ihx⟩
  | case6 n s ss d ds hne hlt ih =>
    intro hn hss hds
    obtain ⟨hsh, hst⟩ := List.pairwise_cons.mp hss
    obtain ⟨hdh, hdt⟩ := List.pairwise_cons.mp hds
    have ihx := ih
      (by simp only [List.length_cons] at hn; simp only [List.length_cons]; omega) hst hds
    have hstep : mergeF (n + 1) (s :: ss) (d :: ds) =
        SyncAction.CopyAction s.relpath s.size :: mergeF n ss (d :: ds) := by
      rw [mergeF, if_neg hne, if_pos hlt]
    rw [hstep]
    refine List.pairwise_cons.mpr ⟨?_, ihx⟩
    intro b hb
    rcases mergeF_path_mem n ss (d :: ds) b hb with ⟨s', h1, h2⟩ | ⟨d', h1, h2⟩
    · rw [← h2]
      exact hsh s' h1
    · rcases List.mem_cons.mp h1 with h3 | h3
      · rw [← h2, h3]
        exact hlt
      · rw [← h2]
        exact pathLt_trans hlt (hdh d' h3)
  | case7 n s ss d ds hne hnlt ih =>
    intro hn hss hds
    obtain ⟨hsh, hst⟩ := List.pairwise_cons.mp hss
    obtain ⟨hdh, hdt⟩ := List.pairwise_cons.mp hds
    have hlf : pathLt s.relpath d.relpath = false := by
      cases h : pathLt s.relpath d.relpath with
      | false => rfl
      | true => exact absurd h hnlt
    have hdl : pathLt d.relpath s.relpath = true := pathLt_of_false_of_ne hlf hne
    have ihx := ih
      (by simp only [List.length_cons] at hn; simp only [List.length_cons]; omega) hss hdt
    have hstep : mergeF (n + 1) (s :: ss) (d :: ds) =
        SyncAction.DeleteAction d.relpath :: mergeF n (s :: ss) ds := by
      rw [mergeF, if_neg hne, if_neg hnlt]
    rw [hstep]
    refine List.pairwise_cons.mpr ⟨?_, ihx⟩
    intro b hb
    rcases mergeF_path_mem n (s :: ss) ds b hb with ⟨s', h1, h2⟩ | ⟨d', h1, h2⟩
    · rcases List.mem_cons.mp h1 with h3 | h3
      · rw [← h2, h3]
        exact hdl
      · rw [← h2]
        exact pathLt_trans hdl (hsh s' h3)
    · rw [← h2]
      exact hdh d' h1

theorem sync_iterator_copy_mem {src dst : List DirEntry} (hs : pathsNodup src)
    (hd : pathsNodup dst) (p : String) (sz : Nat) :
    SyncAction.CopyAction p sz ∈ sync_iterator src dst ↔
      ∃ s ∈ src, s.relpath = p ∧ s.size = sz ∧
        ∀ d ∈ dst, d.relpath = p → changed s d = true := by
  unfold sync_iterator mergeDiff
  rw [mergeF_copy_mem _ _ _ le_rfl (sortTree_pairwise hs) (sortTree_pairwise hd) p sz]
  constructor
  · rintro ⟨s, hsm, h1, h2, h3⟩
    exact ⟨s, (sortTree_perm src).mem_iff.mp hsm, h1, h2,
      fun d hdm => h3 d ((sortTree_perm dst).mem_iff.mpr hdm)⟩
  · rintro ⟨s, hsm, h1, h2, h3⟩
    exact ⟨s, (sortTree_perm src).mem_iff.mpr hsm, h1, h2,
      fun d hdm => h3 d ((sortTree_perm dst).mem_iff.mp hdm)⟩

theorem sync_iterator_delete_mem {src dst : List DirEntry} (hs : pathsNodup src)
    (hd : pathsNodup dst) (p : String) :
    SyncAction.DeleteAction p ∈ sync_iterator src dst ↔
      (∀ s ∈ src, s.relpath ≠ p) ∧ ∃ d ∈ dst, d.relpath = p := by
  unfold sync_iterator mergeDiff
  rw [mergeF_delete_mem _ _ _ le_rfl (sortTree_pairwise hs) (sortTree_pairwise hd) p]
  constructor
  · rintro ⟨h1, d, hdm, h2⟩
    exact ⟨fun s hsm => h1 s ((sortTree_perm src).mem_iff.mpr hsm),
      d, (sortTree_perm dst).mem_iff.mp hdm, h2⟩
  · rintro ⟨h1, d, hdm, h2⟩
    exact ⟨fun s hsm => h1 s ((sortTree_perm src).mem_iff.mp hsm),
      d, (sortTree_perm dst).mem_iff.mpr hdm, h2⟩

theorem sync_iterator_pairwise {src dst : List DirEntry} (hs : pathsNodup src)
    (hd : pathsNodup dst) :
    List.Pairwise (fun a b : SyncAction => pathLt a.relpath b.relpath = true)
      (sync_iterator src dst) :=
  mergeF_pairwise _ _ _ le_rfl (sortTree_pairwise hs) (sortTree_pairwise hd)

theorem sync_iterator_pairwise_ne {src dst : List DirEntry} (hs : pathsNodup src)
    (hd : pathsNodup dst) :
    List.Pairwise (fun a b : SyncAction => a.relpath ≠ b.relpath) (sync_iterator src dst) :=
  (sync_iterator_pairwise hs hd).imp fun h => pathLt_ne h

theorem sync_iterator_nodup {src dst : List DirEntry} (hs : pathsNodup src)
    (hd : pathsNodup dst) : (sync_iterator src dst).Nodup :=
  (sync_iterator_pairwise_ne hs hd).imp fun h he => h (congrArg SyncAction.relpath he)

theorem sync_actions_true_eq (src dst : List DirEntry) :
    sync_actions src dst true = sync_iterator src dst := by
  unfold sync_actions
  apply List.filter_eq_self.mpr
  intro a _
  cases a <;> rfl

theorem sync_actions_sub {src dst : List DirEntry} {del : Bool} {a : SyncAction}
    (h : a ∈ sync_actions src dst del) : a ∈ sync_iterator src dst :=
  (List.mem_filter.mp h).1

theorem sync_actions_copy_mem (src dst : List DirEntry) (del : Bool) (p : String) (sz : Nat) :
    SyncAction.CopyAction p sz ∈ sync_actions src dst del ↔
      SyncAction.CopyAction p sz ∈ sync_iterator src dst := by
  unfold sync_actions
  rw [List.mem_filter]
  simp

theorem sync_actions_no_delete_false (src dst : List DirEntry) (p : String) :
    SyncAction.DeleteAction p ∉ sync_actions src dst false := by
  intro h
  have := (List.mem_filter.mp h).2
  simp at this

theorem sync_actions_pairwise_ne {src dst : List DirEntry} (hs : pathsNodup src)
    (hd : pathsNodup dst) (del : Bool) :
    List.Pairwise (fun a b : SyncAction => a.relpath ≠ b.relpath)
      (sync_actions src dst del) :=
  (sync_iterator_pairwise_ne hs hd).filter _

theorem filter_ne_mem {t : List DirEntry} {p : String} {e : DirEntry} :
    e ∈ t.filter (fun x => !(x.relpath == p)) ↔ e ∈ t ∧ e.relpath ≠ p := by
  rw [List.mem_filter]
  simp

theorem applyActions_mem : ∀ (acts : List SyncAction) (t : List DirEntry) (now : Nat),
    List.Pairwise (fun a b : SyncAction => a.relpath ≠ b.relpath) acts →
    ∀ e : DirEntry,
      (e ∈ applyActions now t acts ↔
        (SyncAction.CopyAction e.relpath e.size ∈ acts ∧ e.mtime = now) ∨
        (e ∈ t ∧ ∀ a ∈ acts, a.relpath ≠ e.relpath)) := by
  intro acts
  induction acts with
  | nil =>
    intro t now _ e
    simp [applyActions]
  | cons a acts ih =>
    intro t now hpw e
    obtain ⟨hah, hat⟩ := List.pairwise_cons.mp hpw
    have hfold : applyActions now t (a :: acts) = applyActions now (applyAction now t a) acts :=
      rfl
    rw [hfold, ih (applyAction now t a) now hat e]
    cases a with
    | CopyAction p sz =>
      constructor
      · rintro (⟨hc, hm⟩ | ⟨he, hno⟩)
        · exact Or.inl ⟨List.mem_cons_of_mem _ hc, hm⟩
        · rcases List.mem_append.mp he with hf | hsin
          · obtain ⟨het, hne⟩ := filter_ne_mem.mp hf
            refine Or.inr ⟨het, ?_⟩
            intro b hb
            rcases List.mem_cons.mp hb with h1 | h1
            · rw [h1]
              exact fun hx => hne hx.symm
            · exact hno b h1
          · rw [List.mem_singleton] at hsin
            subst hsin
            exact Or.inl ⟨List.mem_cons_self _ _, rfl⟩
      · rintro (⟨hc, hm⟩ | ⟨het, hno⟩)
        · rcases List.mem_cons.mp hc with h1 | h1
          · injection h1 with hp1 hsz1
            refine Or.inr ⟨List.mem_append.mpr (Or.inr ?_), ?_⟩
            · rw [List.mem_singleton]
              cases e with
              | mk r z m =>
                simp only at hp1 hsz1 hm
                rw [hp1, hsz1, hm]
            · intro b hb
              have hpb : p ≠ b.relpath := hah b hb
              rw [hp1]
              exact fun hx => hpb hx.symm
          · exact Or.inl ⟨h1, hm⟩
        · have hne : e.relpath ≠ p := by
            have hx := hno (SyncAction.CopyAction p sz) (List.mem_cons_self _ _)
            exact fun hy => hx hy.symm
          refine Or.inr ⟨List.mem_append.mpr (Or.inl (filter_ne_mem.mpr ⟨het, hne⟩)), ?_⟩
          intro b hb
          exact hno b (List.mem_cons_of_mem _ hb)
    | DeleteAction p =>
      constructor
      · rintro (⟨hc, hm⟩ | ⟨he, hno⟩)
        · exact Or.inl ⟨List.mem_cons_of_mem _ hc, hm⟩
        · obtain ⟨het, hne⟩ := filter_ne_mem.mp he
          refine Or.inr ⟨het, ?_⟩
          intro b hb
          rcases List.mem_cons.mp hb with h1 | h1
          · rw [h1]
            exact fun hx => hne hx.symm
          · exact hno b h1
      · rintro (⟨hc, hm⟩ | ⟨het, hno⟩)
        · rcases List.mem_cons.mp hc with h1 | h1
          · exact absurd h1 (by simp)
          · exact Or.inl ⟨h1, hm⟩
        · have hne : e.relpath ≠ p := by
            have hx := hno (SyncAction.DeleteAction p) (List.mem_cons_self _ _)
            exact fun hy => hx hy.symm
          refine Or.inr ⟨filter_ne_mem.mpr ⟨het, hne⟩, ?_⟩
          intro b hb
          exact hno b (List.mem_cons_of_mem _ hb)

theorem applyAction_pathsNodup {t : List DirEntry} (now : Nat) (a : SyncAction)
    (h : pathsNodup t) : pathsNodup (applyAction now t a) := by
  cases a with
  | CopyAction p sz =>
    unfold pathsNodup at h ⊢
    unfold applyAction
    rw [List.map_append, List.nodup_append]
    refine ⟨?_, by simp, ?_⟩
    · exact h.sublist (List.Sublist.map DirEntry.relpath (List.filter_sublist t))
    · intro q hq
      obtain ⟨x, hx, hxq⟩ := List.mem_map.mp hq
      obtain ⟨_, hxp⟩ := filter_ne_mem.mp hx
      simp only [List.map_cons, List.map_nil, List.mem_singleton]
      rw [← hxq]
      exact hxp
  | DeleteAction p =>
    unfold pathsNodup at h ⊢
    unfold applyAction
    exact h.sublist (List.Sublist.map DirEntry.relpath (List.filter_sublist t))

theorem applyActions_pathsNodup : ∀ (acts : List SyncAction) (t : List DirEntry) (now : Nat),
    pathsNodup t → pathsNodup (applyActions now t acts) := by
  intro acts
  induction acts with
  | nil =>
    intro t now h
    exact h
  | cons a acts ih =>
    intro t now h
    exact ih (applyAction now t a) now (applyAction_pathsNodup now a h)

theorem apply_sync_mem {src dst : List DirEntry} (hs : pathsNodup src) (hd : pathsNodup dst)
    (del : Bool) (now : Nat) (e : DirEntry) :
    e ∈ apply_sync src dst del now ↔
      (SyncAction.CopyAction e.relpath e.size ∈ sync_actions src dst del ∧ e.mtime = now) ∨
      (e ∈ dst ∧ ∀ a ∈ sync_actions src dst del, a.relpath ≠ e.relpath) := by
  unfold apply_sync
  exact applyActions_mem _ dst now (sync_actions_pairwise_ne hs hd del) e

theorem apply_sync_pathsNodup {src dst : List DirEntry} (del : Bool) (now : Nat)
    (hd : pathsNodup dst) : pathsNodup (apply_sync src dst del now) :=
  applyActions_pathsNodup _ dst now hd

theorem changed_true_iff (s d : DirEntry) :
    changed s d = true ↔ s.size ≠ d.size ∨ d.mtime < s.mtime := by
  unfold changed
  simp

theorem changed_false_iff (s d : DirEntry) :
    changed s d = false ↔ s.size = d.size ∧ ¬ d.mtime < s.mtime := by
  unfold changed
  simp

theorem apply_sync_src {src dst : List DirEntry} (hs : pathsNodup src) (hd : pathsNodup dst)
    (del : Bool) (now : Nat) {s : DirEntry} (hsm : s ∈ src) :
    ∃ e ∈ apply_sync src dst del now,
      e.relpath = s.relpath ∧ e.size = s.size ∧ (e.mtime = now ∨ s.mtime ≤ e.mtime) := by
  by_cases hc : SyncAction.CopyAction s.relpath s.size ∈ sync_iterator src dst
  · refine ⟨⟨s.relpath, s.size, now⟩, ?_, rfl, rfl, Or.inl rfl⟩
    apply (apply_sync_mem hs hd del now _).mpr
    exact Or.inl ⟨(sync_actions_copy_mem src dst del _ _).mpr hc, rfl⟩
  · have hnc := hc
    rw [sync_iterator_copy_mem hs hd] at hnc
    push_neg at hnc
    obtain ⟨d, hdm, hdr, hch⟩ := hnc s hsm rfl rfl
    have hch2 : changed s d = false := by
      cases h : changed s d with
      | false => rfl
      | true => exact absurd h hch
    obtain ⟨hsize, hmt⟩ := (changed_false_iff s d).mp hch2
    refine ⟨d, ?_, hdr, hsize.symm, Or.inr (by omega)⟩
    apply (apply_sync_mem hs hd del now d).mpr
    right
    refine ⟨hdm, ?_⟩
    intro a ha
    have hai := sync_actions_sub ha
    intro hap
    cases a with
    | CopyAction q szq =>
      have hai0 := hai
      rw [sync_iterator_copy_mem hs hd] at hai
      obtain ⟨s', hs'm, h1, h2, _⟩ := hai
      have hq : q = d.relpath := hap
      have h1' : s'.relpath = s.relpath := by rw [h1, hq, hdr]
      have hs's : s' = s := entry_eq_of_same_path hs hs'm hsm h1'
      have hform : SyncAction.CopyAction q szq = SyncAction.CopyAction s.relpath s.size := by
        rw [← h1, ← h2, hs's]
      rw [hform] at hai0
      exact hc hai0
    | DeleteAction q =>
      rw [sync_iterator_delete_mem hs hd] at hai
      have hq : q = d.relpath := hap
      exact hai.1 s hsm (by rw [hq, hdr])

theorem apply_sync_true_sub {src dst : List DirEntry} (hs : pathsNodup src)
    (hd : pathsNodup dst) (now : Nat) {e : DirEntry}
    (he : e ∈ apply_sync src dst true now) :
    ∃ s ∈ src, s.relpath = e.relpath ∧ s.size = e.size ∧
      (e.mtime = now ∨ ¬ e.mtime < s.mtime) := by
  rcases (apply_sync_mem hs hd true now e).mp he with ⟨hc, hm⟩ | ⟨hdm, hno⟩
  · have hci := (sync_actions_copy_mem src dst true _ _).mp hc
    rw [sync_iterator_copy_mem hs hd] at hci
    obtain ⟨s, hsm, h1, h2, _⟩ := hci
    exact ⟨s, hsm, h1, h2, Or.inl hm⟩
  · by_cases hex : ∃ s ∈ src, s.relpath = e.relpath
    · obtain ⟨s, hsm, h1⟩ := hex
      by_cases hch : changed s e = true
      · exfalso
        have hci : SyncAction.CopyAction s.relpath s.size ∈ sync_iterator src dst := by
          rw [sync_iterator_copy_mem hs hd]
          refine ⟨s, hsm, rfl, rfl, ?_⟩
          intro d' hd' hp'
          have hdd : d' = e := entry_eq_of_same_path hd hd' hdm (by rw [hp', ← h1])
          rw [hdd]
          exact hch
        have hca : SyncAction.CopyAction s.relpath s.size ∈ sync_actions src dst true :=
          (sync_actions_copy_mem src dst true _ _).mpr hci
        exact hno _ hca h1
      · have hch2 : changed s e = false := by
          cases h : changed s e with
          | false => rfl
          | true => exact absurd h hch
        obtain ⟨hsize, hmt⟩ := (changed_false_iff s e).mp hch2
        exact ⟨s, hsm, h1, hsize, Or.inr hmt⟩
    · exfalso
      push_neg at hex
      have hdi : SyncAction.DeleteAction e.relpath ∈ sync_iterator src dst := by
        rw [sync_iterator_delete_mem hs hd]
        exact ⟨hex, e, hdm, rfl⟩
      have hda : SyncAction.DeleteAction e.relpath ∈ sync_actions src dst true := by
        rw [sync_actions_true_eq]
        exact hdi
      exact hno _ hda rfl

theorem pathSizeSet_mem {t : List DirEntry} (pr : String × Nat) :
    pr ∈ pathSizeSet t ↔ ∃ e ∈ t, e.relpath = pr.1 ∧ e.size = pr.2 := by
  unfold pathSizeSet
  rw [List.mem_map]
  constructor
  · rintro ⟨e, hm, heq⟩
    refine ⟨e, (sortTree_perm t).mem_iff.mp hm, ?_, ?_⟩ <;> rw [← heq]
  · rintro ⟨e, hm, h1, h2⟩
    refine ⟨e, (sortTree_perm t).mem_iff.mpr hm, ?_⟩
    cases pr with
    | mk a b =>
      simp only at h1 h2
      rw [h1, h2]

theorem pathSizeSet_pairwise {t : List DirEntry} (h : pathsNodup t) :
    List.Pairwise (fun a b : String × Nat => pathLt a.1 b.1 = true) (pathSizeSet t) := by
  unfold pathSizeSet
  rw [List.pairwise_map]
  exact (sortTree_pairwise h).imp fun hx => hx

theorem pathSizeSet_nodup {t : List DirEntry} (h : pathsNodup t) : (pathSizeSet t).Nodup :=
  (pathSizeSet_pairwise h).imp fun hx he => pathLt_ne hx (congrArg Prod.fst he)

theorem pathSizeSet_eq_of_same {t1 t2 : List DirEntry} (h1 : pathsNodup t1)
    (h2 : pathsNodup t2)
    (hm : ∀ pr : String × Nat, pr ∈ pathSizeSet t1 ↔ pr ∈ pathSizeSet t2) :
    pathSizeSet t1 = pathSizeSet t2 := by
  letI : IsAntisymm (String × Nat) (fun a b => pathLt a.1 b.1 = true) :=
    ⟨fun a b ha hb => absurd hb (by rw [pathLt_asymm ha]; exact Bool.false_ne_true)⟩
  apply List.eq_of_perm_of_sorted ?_ (pathSizeSet_pairwise h1) (pathSizeSet_pairwise h2)
  exact (List.perm_ext_iff_of_nodup (pathSizeSet_nodup h1) (pathSizeSet_nodup h2)).mpr hm

theorem testSrc_nodup : pathsNodup testSrc := by
  unfold pathsNodup
  decide

theorem testDst_nodup : pathsNodup testDst := by
  unfold pathsNodup
  decide

/-- The sync model reproduces the repository test's asserted action list:
with `f2` removed from the source and `delta/f9` rewritten at equal size
but newer mtime, `sync_iterator` produces exactly `CopyAction("delta/f9",
4)` and `DeleteAction("f2")`, already in path order. -/
theorem sync_iterator_test_scenario :
    sync_iterator testSrc testDst =
      [SyncAction.CopyAction "delta/f9" 4, SyncAction.DeleteAction "f2"] := by
  decide

/-- C1, counterexample: in the repository test's own scenario the source
and destination `delta/f9` entries both have size 4, yet `sync_iterator`
emits `CopyAction("delta/f9", 4)` (the source is strictly newer), so
"a CopyAction is emitted iff the sizes differ" is false: size equality does
not suppress the copy. -/
theorem sync_iterator_size_only_cex :
    (∃ s ∈ testSrc, s.relpath = "delta/f9" ∧ s.size = 4) ∧
    (∃ d ∈ testDst, d.relpath = "delta/f9" ∧ d.size = 4) ∧
    SyncAction.CopyAction "delta/f9" 4 ∈ sync_iterator testSrc testDst := by
  decide

/-- C1, amended: for every path present in both trees, `sync_iterator`
emits a `CopyAction` for it if and only if the sizes differ or the source
entry's mtime is strictly newer than the destination's; content is never
consulted.  With equal sizes and a source no newer than the destination,
nothing is emitted for the path. -/
theorem sync_iterator_copy_iff_size_or_mtime {src dst : List DirEntry}
    (hs : pathsNodup src) (hd : pathsNodup dst) {s d : DirEntry}
    (hsm : s ∈ src) (hdm : d ∈ dst) (hpd : d.relpath = s.relpath) :
    SyncAction.CopyAction s.relpath s.size ∈ sync_iterator src dst ↔
      (s.size ≠ d.size ∨ d.mtime < s.mtime) := by
  rw [sync_iterator_copy_mem hs hd]
  constructor
  · rintro ⟨s', hs'm, h1, h2, h3⟩
    have hss : s' = s := entry_eq_of_same_path hs hs'm hsm h1
    have hch := h3 d hdm hpd
    rw [hss] at hch
    exact (changed_true_iff s d).mp hch
  · intro h
    refine ⟨s, hsm, rfl, rfl, ?_⟩
    intro d' hd' hp'
    have hdd : d' = d := entry_eq_of_same_path hd hd' hdm (by rw [hp', ← hpd])
    rw [hdd]
    exact (changed_true_iff s d).mpr h

/-- Witness for the amended C1, at the test's `delta/f9` entries. -/
theorem sync_iterator_copy_iff_size_or_mtime_witness :
    SyncAction.CopyAction (DirEntry.mk "delta/f9" 4 2).relpath
        (DirEntry.mk "delta/f9" 4 2).size ∈ sync_iterator testSrc testDst ↔
      ((DirEntry.mk "delta/f9" 4 2).size ≠ (DirEntry.mk "delta/f9" 4 1).size ∨
        (DirEntry.mk "delta/f9" 4 1).mtime < (DirEntry.mk "delta/f9" 4 2).mtime) :=
  sync_iterator_copy_iff_size_or_mtime testSrc_nodup testDst_nodup
    (by decide) (by decide) rfl

/-- C2, counterexample: the emitted action set of the test scenario is not
minimal for (path, size) agreement.  Its strict subset `[DeleteAction
"f2"]` already makes the destination's (path, size) set equal to the
source's, while the emitted set additionally contains the mtime-driven
`CopyAction("delta/f9", 4)` — an action that (path, size) equality does not
need. -/
theorem sync_actions_not_minimal_cex :
    pathSizeSet (applyActions 3 testDst [SyncAction.DeleteAction "f2"]) =
        pathSizeSet testSrc ∧
    (∀ a ∈ [SyncAction.DeleteAction "f2"], a ∈ sync_actions testSrc testDst true) ∧
    SyncAction.CopyAction "delta/f9" 4 ∈ sync_actions testSrc testDst true ∧
    SyncAction.CopyAction "delta/f9" 4 ∉ [SyncAction.DeleteAction "f2"] := by
  decide

/-- C2, amended: the emitted set is sufficient rather than minimal.
Applying the actions the driver executes — copies plus, at delete=true,
deletes — makes the destination's (path, size) set equal to the source's
at delete=true, and a superset of it at delete=false; minimality holds
only up to the mtime hint, which may add equal-size copies. -/
theorem sync_apply_pathSize_correct (src dst : List DirEntry) (now : Nat)
    (hs : pathsNodup src) (hd : pathsNodup dst) :
    pathSizeSet (apply_sync src dst true now) = pathSizeSet src ∧
    ∀ pr ∈ pathSizeSet src, pr ∈ pathSizeSet (apply_sync src dst false now) := by
  constructor
  · apply pathSizeSet_eq_of_same (apply_sync_pathsNodup true now hd) hs
    intro pr
    rw [pathSizeSet_mem, pathSizeSet_mem]
    constructor
    · rintro ⟨e, he, h1, h2⟩
      obtain ⟨s, hsm, g1, g2, _⟩ := apply_sync_true_sub hs hd now he
      exact ⟨s, hsm, by rw [g1, h1], by rw [g2, h2]⟩
    · rintro ⟨s, hsm, h1, h2⟩
      obtain ⟨e, he, g1, g2, _⟩ := apply_sync_src hs hd true now hsm
      exact ⟨e, he, by rw [g1, h1], by rw [g2, h2]⟩
  · intro pr hpr
    rw [pathSizeSet_mem] at hpr ⊢
    obtain ⟨s, hsm, h1, h2⟩ := hpr
    obtain ⟨e, he, g1, g2, _⟩ := apply_sync_src hs hd false now hsm
    exact ⟨e, he, by rw [g1, h1], by rw [g2, h2]⟩

/-- Witness for the amended C2, on the test trees with copies stamped at
time 5. -/
theorem sync_apply_pathSize_correct_witness :
    pathSizeSet (apply_sync testSrc testDst true 5) = pathSizeSet testSrc ∧
    ∀ pr ∈ pathSizeSet testSrc, pr ∈ pathSizeSet (apply_sync testSrc testDst false 5) :=
  sync_apply_pathSize_correct testSrc testDst 5 testSrc_nodup testDst_nodup

/-- C3, counterexample: `sync_iterator` takes no delete flag — the
repository's test calls it as `sync_iterator(any_dir, other_any_dir)` — and
for the destination-only path `f2` that flagless invocation does emit
`DeleteAction("f2")`, so "with delete=false ... produces no action" is
false of the iterator. -/
theorem sync_iterator_delete_default_cex :
    (∀ s ∈ testSrc, s.relpath ≠ "f2") ∧
    (∃ d ∈ testDst, d.relpath = "f2") ∧
    SyncAction.DeleteAction "f2" ∈ sync_iterator testSrc testDst := by
  decide

/-- C3, amended: for a path present in the destination and absent from the
source, `sync_iterator` always emits exactly one `DeleteAction` — the
iterator has no delete parameter; delete semantics live in the `sync`
driver, which executes no DeleteAction when delete=false and exactly this
one when delete=true. -/
theorem sync_iterator_delete_always {src dst : List DirEntry}
    (hs : pathsNodup src) (hd : pathsNodup dst) {p : String}
    (hno : ∀ s ∈ src, s.relpath ≠ p) (hyes : ∃ d ∈ dst, d.relpath = p) :
    List.count (SyncAction.DeleteAction p) (sync_iterator src dst) = 1 ∧
    SyncAction.DeleteAction p ∉ sync_actions src dst false ∧
    List.count (SyncAction.DeleteAction p) (sync_actions src dst true) = 1 := by
  have hmem : SyncAction.DeleteAction p ∈ sync_iterator src dst :=
    (sync_iterator_delete_mem hs hd p).mpr ⟨hno, hyes⟩
  have hcount : List.count (SyncAction.DeleteAction p) (sync_iterator src dst) = 1 :=
    List.count_eq_one_of_mem (sync_iterator_nodup hs hd) hmem
  refine ⟨hcount, sync_actions_no_delete_false src dst p, ?_⟩
  rw [sync_actions_true_eq]
  exact hcount

/-- Witness for the amended C3, at the test's stale path `f2`. -/
theorem sync_iterator_delete_always_witness :
    List.count (SyncAction.DeleteAction "f2") (sync_iterator testSrc testDst) = 1 ∧
    SyncAction.DeleteAction "f2" ∉ sync_actions testSrc testDst false ∧
    List.count (SyncAction.DeleteAction "f2") (sync_actions testSrc testDst true) = 1 :=
  sync_iterator_delete_always testSrc_nodup testDst_nodup (by decide) (by decide)

/-- C6: syncing twice is idempotent.  After one `sync(src, dst, executor,
delete=true)` run whose copies are stamped at a time `now` no earlier than
any source mtime, diffing the source against the resulting destination
yields zero actions, and hence the second `sync` run yields zero completed
paths. -/
theorem sync_twice_idempotent (src dst : List DirEntry) (now : Nat)
    (hs : pathsNodup src) (hd : pathsNodup dst)
    (hnow : ∀ s ∈ src, s.mtime ≤ now) :
    sync_iterator src (apply_sync src dst true now) = [] ∧
    sync_paths src (apply_sync src dst true now) true = [] := by
  have hd' : pathsNodup (apply_sync src dst true now) := apply_sync_pathsNodup true now hd
  have hmain : sync_iterator src (apply_sync src dst true now) = [] := by
    by_contra hne
    obtain ⟨a, ha⟩ : ∃ a, a ∈ sync_iterator src (apply_sync src dst true now) := by
      cases h : sync_iterator src (apply_sync src dst true now) with
      | nil => exact absurd h hne
      | cons x l => exact ⟨x, List.mem_cons_self x l⟩
    cases a with
    | CopyAction p sz =>
      rw [sync_iterator_copy_mem hs hd'] at ha
      obtain ⟨s, hsm, h1, h2, h3⟩ := ha
      obtain ⟨e, he, g1, g2, g3⟩ := apply_sync_src hs hd true now hsm
      have hcall := h3 e he (by rw [g1, h1])
      rw [changed_true_iff] at hcall
      rcases hcall with hx | hx
      · exact hx g2.symm
      · have hsn := hnow s hsm
        rcases g3 with g4 | g4 <;> omega
    | DeleteAction p =>
      rw [sync_iterator_delete_mem hs hd'] at ha
      obtain ⟨h1, d, hdm, h2⟩ := ha
      obtain ⟨s, hsm, g1, _, _⟩ := apply_sync_true_sub hs hd now hdm
      exact h1 s hsm (by rw [g1, h2])
  refine ⟨hmain, ?_⟩
  unfold sync_paths sync_actions
  rw [hmain]
  rfl

/-- Witness for C6, on the test trees with copies stamped at time 5. -/
theorem sync_twice_idempotent_witness :
    sync_iterator testSrc (apply_sync testSrc testDst true 5) = [] ∧
    sync_paths testSrc (apply_sync testSrc testDst true 5) true = [] :=
  sync_twice_idempotent testSrc testDst 5 testSrc_nodup testDst_nodup (by decide)

theorem runRemoves_cons_unfold {P : Type} (removeOk : P → Bool) (e : P) (rest : List P) :
    runRemoves removeOk (e :: rest) =
      if removeOk e = true then
        ⟨RmEvent.removeCall e :: RmEvent.yieldPath e :: (runRemoves removeOk rest).trace,
         e :: (runRemoves removeOk rest).yielded, (runRemoves removeOk rest).failed⟩
      else ⟨[RmEvent.removeCall e], [], some e⟩ := rfl

theorem runRemoves_cons_ok {P : Type} (removeOk : P → Bool) (e : P) (rest : List P)
    (h : removeOk e = true) :
    runRemoves removeOk (e :: rest) =
      ⟨RmEvent.removeCall e :: RmEvent.yieldPath e :: (runRemoves removeOk rest).trace,
       e :: (runRemoves removeOk rest).yielded, (runRemoves removeOk rest).failed⟩ := by
  rw [runRemoves_cons_unfold, if_pos h]

theorem runRemoves_cons_fail {P : Type} (removeOk : P → Bool) (e : P) (rest : List P)
    (h : removeOk e = false) :
    runRemoves removeOk (e :: rest) = ⟨[RmEvent.removeCall e], [], some e⟩ := by
  rw [runRemoves_cons_unfold, if_neg (by rw [h]; exact Bool.false_ne_true)]

theorem runRemoves_all_ok {P : Type} (removeOk : P → Bool) :
    ∀ l : List P, (∀ e ∈ l, removeOk e = true) →
      runRemoves removeOk l = ⟨cleanTrace l, l, none⟩ := by
  intro l
  induction l with
  | nil =>
    intro _
    rfl
  | cons e rest ih =>
    intro h
    rw [runRemoves_cons_ok removeOk e rest (h e (List.mem_cons_self e rest))]
    rw [ih fun x hx => h x (List.mem_cons_of_mem e hx)]
    simp [cleanTrace]

theorem cleanTrace_cons {P : Type} (e : P) (rest : List P) :
    cleanTrace (e :: rest) =
      RmEvent.removeCall e :: RmEvent.yieldPath e :: cleanTrace rest := by
  simp [cleanTrace]

theorem cleanTrace_getElem {P : Type} : ∀ (l : List P) (k : Nat) (hk : k < l.length),
    (cleanTrace l)[2 * k]? = some (RmEvent.removeCall (l.get ⟨k, hk⟩)) ∧
    (cleanTrace l)[2 * k + 1]? = some (RmEvent.yieldPath (l.get ⟨k, hk⟩)) := by
  intro l
  induction l with
  | nil =>
    intro k hk
    simp at hk
  | cons e rest ih =>
    intro k hk
    cases k with
    | zero =>
      rw [cleanTrace_cons]
      constructor
      · simp
      · simp
    | succ k' =>
      have hk' : k' < rest.length := by
        rw [List.length_cons] at hk
        omega
      have hx := ih k' hk'
      rw [cleanTrace_cons]
      constructor
      · have h2 : 2 * (k' + 1) = 2 * k' + 1 + 1 := by ring
        rw [h2, List.getElem?_cons_succ, List.getElem?_cons_succ]
        exact hx.1
      · have h2 : 2 * (k' + 1) + 1 = (2 * k' + 1) + 1 + 1 := by ring
        rw [h2, List.getElem?_cons_succ, List.getElem?_cons_succ]
        exact hx.2

theorem cleanTrace_removeCall_mem {P : Type} {l : List P} {e : P} (h : e ∈ l) :
    RmEvent.removeCall e ∈ cleanTrace l := by
  unfold cleanTrace
  rw [List.mem_flatMap]
  exact ⟨e, h, by simp⟩

theorem rmtree_iterator_nil {P : Type} (path : P) (isfile removeOk : P → Bool) :
    rmtree_iterator path [] isfile removeOk =
      ⟨[], [], true,
        some (if isfile path then RmtreeError.notADirectory path
              else RmtreeError.fileNotFound path)⟩ := by
  unfold rmtree_iterator runRemoves
  cases h : isfile path <;> simp [h]

/-- C4: on an empty tree listing (the listing of a wholly absent path, or
of a plain file's directory-ified path), `rmtree_iterator` yields nothing,
runs the secondary check, and raises `FileNotFoundError` when
`isfile(path)` is false (absent path) and `NotADirectoryError` when it is
true (existing plain file) — in both cases with zero paths yielded before
the error. -/
theorem rmtree_empty_listing_errors {P : Type} (path : P) (isfile removeOk : P → Bool) :
    rmtree_iterator path [] isfile removeOk =
      ⟨[], [], true,
        some (if isfile path then RmtreeError.notADirectory path
              else RmtreeError.fileNotFound path)⟩ :=
  rmtree_iterator_nil path isfile removeOk

/-- Shape of any `rmtree_iterator` run over a non-empty listing: the
secondary check never runs, and the terminal error, if any, is a
propagated `remove` failure, never the iterator's own not-found or
not-a-directory classification. -/
theorem rmtree_cons_shape {P : Type} (path : P) (e : P) (rest : List P)
    (isfile removeOk : P → Bool) :
    (rmtree_iterator path (e :: rest) isfile removeOk).isfileCalled = false ∧
    ∀ q : P,
      (rmtree_iterator path (e :: rest) isfile removeOk).error ≠
        some (RmtreeError.fileNotFound q) ∧
      (rmtree_iterator path (e :: rest) isfile removeOk).error ≠
        some (RmtreeError.notADirectory q) := by
  unfold rmtree_iterator
  cases hre : removeOk e with
  | false =>
    rw [runRemoves_cons_fail removeOk e rest hre]
    exact ⟨rfl, fun q => ⟨by simp, by simp⟩⟩
  | true =>
    rw [runRemoves_cons_ok removeOk e rest hre]
    cases hf : (runRemoves removeOk rest).failed with
    | some x => exact ⟨rfl, fun q => ⟨by simp, by simp⟩⟩
    | none => exact ⟨rfl, fun q => ⟨by simp, by simp⟩⟩

/-- C5: for a listing of K ≥ 1 entries whose removals all succeed,
consumed in any completion order, `rmtree_iterator` yields exactly the
completion order — each listed path exactly once — invokes `remove` on
every listed entry, the `remove` of each entry sits in the trace
immediately before that entry's yield, and no error is raised. -/
theorem rmtree_deletes_all_yields_once {P : Type} [DecidableEq P] (path : P)
    (listing completion : List P) (isfile removeOk : P → Bool)
    (hne : listing ≠ []) (hperm : completion.Perm listing) (hnd : listing.Nodup)
    (hok : ∀ e ∈ listing, removeOk e = true) :
    (rmtree_iterator path completion isfile removeOk).yielded = completion ∧
    (∀ e ∈ listing,
      List.count e (rmtree_iterator path completion isfile removeOk).yielded = 1) ∧
    (∀ e ∈ listing,
      RmEvent.removeCall e ∈ (rmtree_iterator path completion isfile removeOk).trace) ∧
    (∀ k, ∀ hk : k < completion.length,
      (rmtree_iterator path completion isfile removeOk).trace[2 * k]? =
        some (RmEvent.removeCall (completion.get ⟨k, hk⟩)) ∧
      (rmtree_iterator path completion isfile removeOk).trace[2 * k + 1]? =
        some (RmEvent.yieldPath (completion.get ⟨k, hk⟩))) ∧
    (rmtree_iterator path completion isfile removeOk).error = none := by
  have hokc : ∀ e ∈ completion, removeOk e = true := fun e he =>
    hok e (hperm.mem_iff.mp he)
  have hrun := runRemoves_all_ok removeOk completion hokc
  have hcne : completion ≠ [] := by
    intro h
    rw [h] at hperm
    exact hne hperm.symm.eq_nil
  have hie : completion.isEmpty = false := by
    cases completion with
    | nil => exact absurd rfl hcne
    | cons a l => rfl
  have hform : rmtree_iterator path completion isfile removeOk =
      ⟨cleanTrace completion, completion, false, none⟩ := by
    unfold rmtree_iterator
    rw [hrun]
    simp [hie]
  rw [hform]
  refine ⟨rfl, ?_, ?_, ?_, rfl⟩
  · intro e he
    have h1 : List.count e completion = List.count e listing := hperm.count_eq e
    rw [h1]
    exact List.count_eq_one_of_mem hnd he
  · intro e he
    exact cleanTrace_removeCall_mem (hperm.mem_iff.mpr he)
  · intro k hk
    exact cleanTrace_getElem completion k hk

/-- Witness for C5: listing `[1, 2]` completing in the order `[2, 1]`. -/
theorem rmtree_deletes_all_yields_once_witness :
    (rmtree_iterator (0 : Nat) [2, 1] (fun _ => false) (fun _ => true)).yielded = [2, 1] ∧
    (∀ e ∈ [1, 2],
      List.count e (rmtree_iterator (0 : Nat) [2, 1] (fun _ => false)
        (fun _ => true)).yielded = 1) ∧
    (∀ e ∈ [1, 2],
      RmEvent.removeCall e ∈
        (rmtree_iterator (0 : Nat) [2, 1] (fun _ => false) (fun _ => true)).trace) ∧
    (∀ k, ∀ hk : k < List.length [2, 1],
      (rmtree_iterator (0 : Nat) [2, 1] (fun _ => false) (fun _ => true)).trace[2 * k]? =
        some (RmEvent.removeCall (List.get [2, 1] ⟨k, hk⟩)) ∧
      (rmtree_iterator (0 : Nat) [2, 1] (fun _ => false)
          (fun _ => true)).trace[2 * k + 1]? =
        some (RmEvent.yieldPath (List.get [2, 1] ⟨k, hk⟩))) ∧
    (rmtree_iterator (0 : Nat) [2, 1] (fun _ => false) (fun _ => true)).error = none :=
  rmtree_deletes_all_yields_once 0 [1, 2] [2, 1] (fun _ => false) (fun _ => true)
    (by decide) (by decide) (by decide) (by decide)

/-- C7: `rmtree_iterator` issues its secondary `isfile` check exactly when
the listing completed zero entries; with at least one entry no extra
existence check is made and the iterator's own not-found / not-a-directory
errors cannot arise (a failing `remove` surfaces as a propagated task
failure, distinct from the secondary-check classification). -/
theorem rmtree_isfile_check_iff_empty {P : Type} (path : P) (completion : List P)
    (isfile removeOk : P → Bool) :
    ((rmtree_iterator path completion isfile removeOk).isfileCalled = true ↔
      completion = []) ∧
    (completion ≠ [] → ∀ q : P,
      (rmtree_iterator path completion isfile removeOk).error ≠
        some (RmtreeError.fileNotFound q) ∧
      (rmtree_iterator path completion isfile removeOk).error ≠
        some (RmtreeError.notADirectory q)) := by
  cases completion with
  | nil =>
    refine ⟨⟨fun _ => rfl, fun _ => ?_⟩, fun h => absurd rfl h⟩
    rw [rmtree_iterator_nil path isfile removeOk]
  | cons e rest =>
    obtain ⟨h1, h2⟩ := rmtree_cons_shape path e rest isfile removeOk
    refine ⟨⟨fun hx => ?_, fun hx => absurd hx (by simp)⟩, fun _ => h2⟩
    rw [h1] at hx
    exact absurd hx Bool.false_ne_true

/-- Witness for C7: a singleton listing skips the check, the empty listing
makes it. -/
theorem rmtree_isfile_check_iff_empty_witness :
    ((rmtree_iterator (0 : Nat) [1] (fun _ => false) (fun _ => true)).isfileCalled = true ↔
      ([1] : List Nat) = []) ∧
    ((rmtree_iterator (0 : Nat) ([] : List Nat) (fun _ => false)
        (fun _ => true)).isfileCalled = true ↔ ([] : List Nat) = []) :=
  ⟨(rmtree_isfile_check_iff_empty 0 [1] (fun _ => false) (fun _ => true)).1,
   (rmtree_isfile_check_iff_empty 0 [] (fun _ => false) (fun _ => true)).1⟩

/-- C8: for both Azure and Google, a directory-like path makes `remove`
raise `IsADirectoryError` with no DELETE request sent to the backend; for
a non-directory-like path whose DELETE comes back 404 (an absent blob),
the 404 surfaces as `FileNotFoundError` after the one request. -/
theorem cloud_remove_dirlike_and_404 :
    (∀ st : Nat, _azure_remove true st = ⟨false, RemoveOutcome.isADirectoryError⟩) ∧
    (∀ st : Nat, _google_remove true st = ⟨false, RemoveOutcome.isADirectoryError⟩) ∧
    _azure_remove false 404 = ⟨true, RemoveOutcome.fileNotFoundError⟩ ∧
    _google_remove false 404 = ⟨true, RemoveOutcome.fileNotFoundError⟩ :=
  ⟨fun _ => rfl, fun _ => rfl, rfl, rfl⟩

theorem zipLongest_length {fill : Nat} : ∀ (xs ys : List Nat),
    (zipLongest fill xs ys).length = max xs.length ys.length := by
  intro xs
  induction xs with
  | nil =>
    intro ys
    simp [zipLongest]
  | cons x xs ih =>
    intro ys
    cases ys with
    | nil =>
      simp only [zipLongest, List.length_cons]
      rw [ih]
      simp
    | cons y ys =>
      simp only [zipLongest, List.length_cons]
      rw [ih]
      simp only [List.tail_cons, List.length_cons]
      omega

theorem zipLongest_getElem {fill : Nat} : ∀ (xs ys : List Nat) (i : Nat),
    i < max xs.length ys.length →
    (zipLongest fill xs ys)[i]? = some (xs.getD i fill, ys.getD i fill) := by
  intro xs
  induction xs with
  | nil =>
    intro ys i hi
    simp only [List.length_nil, Nat.max_eq_right (Nat.zero_le _)] at hi
    simp only [zipLongest]
    rw [List.getElem?_map, List.getElem?_eq_getElem hi]
    rw [List.getD_eq_getElem ys fill hi]
    rfl
  | cons x xs ih =>
    intro ys i hi
    cases i with
    | zero =>
      cases ys <;> simp [zipLongest]
    | succ i' =>
      have hi' : i' < max xs.length ys.tail.length := by
        cases ys with
        | nil =>
          simp only [List.length_cons, List.length_nil] at hi ⊢
          omega
        | cons y ys =>
          simp only [List.length_cons, List.tail_cons] at hi ⊢
          omega
      simp only [zipLongest, List.getElem?_cons_succ]
      rw [ih ys.tail i' hi']
      have h1 : (x :: xs).getD (i' + 1) fill = xs.getD i' fill := rfl
      have h2 : ys.getD (i' + 1) fill = ys.tail.getD i' fill := by
        cases ys <;> rfl
      rw [h1, h2]

theorem rangeStep_length (start stop step : Nat) :
    (rangeStep start stop step).length = (stop - start + step - 1) / step := by
  simp [rangeStep]

theorem rangeStep_getD (start stop step fill i : Nat)
    (hi : i < (rangeStep start stop step).length) :
    (rangeStep start stop step).getD i fill = start + i * step := by
  rw [List.getD_eq_getElem _ fill hi]
  unfold rangeStep
  rw [List.getElem_map]
  rw [List.getElem_range]

theorem rangeStep_getD_oob (start stop step fill i : Nat)
    (hi : (rangeStep start stop step).length ≤ i) :
    (rangeStep start stop step).getD i fill = fill :=
  List.getD_eq_default _ fill hi

theorem byteRanges_eq (size c : Nat) (hc : 0 < c) :
    byteRanges size c =
      (List.range ((size + c - 1) / c)).map fun i => (i * c, min ((i + 1) * c) size) := by
  have hkA : (rangeStep 0 size c).length = (size + c - 1) / c := by
    rw [rangeStep_length]
    norm_num
  have hkB : (rangeStep c size c).length = (size - 1) / c := by
    rw [rangeStep_length]
    rcases Nat.lt_or_ge size c with h | h
    · rw [Nat.div_eq_of_lt (by omega), Nat.div_eq_of_lt (by omega)]
    · congr 1
      omega
  have hBA : (size - 1) / c ≤ (size + c - 1) / c := Nat.div_le_div_right (by omega)
  apply List.ext_getElem?
  intro i
  by_cases hi : i < (size + c - 1) / c
  · have hiz : i < max (rangeStep 0 size c).length (rangeStep c size c).length :=
      lt_of_lt_of_le (by rw [hkA]; exact hi) (le_max_left _ _)
    unfold byteRanges
    rw [zipLongest_getElem _ _ i hiz]
    rw [List.getElem?_map, List.getElem?_range hi]
    simp only [Option.map_some']
    have h1 : (rangeStep 0 size c).getD i size = 0 + i * c :=
      rangeStep_getD 0 size c size i (by rw [hkA]; omega)
    rw [Nat.zero_add] at h1
    have hmul : (i + 1) * c = i * c + c := by ring
    by_cases hib : i < (size - 1) / c
    · have h2 : (rangeStep c size c).getD i size = c + i * c :=
        rangeStep_getD c size c size i (by rw [hkB]; omega)
      have hle : (i + 1) * c ≤ size - 1 := (Nat.le_div_iff_mul_le hc).mp (by omega)
      have h3 : min ((i + 1) * c) size = c + i * c := by omega
      rw [h1, h2, h3]
    · have h2 : (rangeStep c size c).getD i size = size :=
        rangeStep_getD_oob c size c size i (by rw [hkB]; omega)
      have hlt : size - 1 < (i + 1) * c :=
        (Nat.div_lt_iff_lt_mul hc).mp (by omega)
      have h3 : min ((i + 1) * c) size = size := by omega
      rw [h1, h2, h3]
  · have hlen1 : (byteRanges size c).length = (size + c - 1) / c := by
      unfold byteRanges
      rw [zipLongest_length, hkA, hkB]
      exact Nat.max_eq_left hBA
    rw [List.getElem?_eq_none (by omega : (byteRanges size c).length ≤ i)]
    rw [List.getElem?_eq_none (by simp; omega)]

theorem byteRanges_start_lt (size c : Nat) (hc : 0 < c) {i : Nat}
    (hi : i < (size + c - 1) / c) : i * c < size := by
  have h1 : (i + 1) * c ≤ size + c - 1 := (Nat.le_div_iff_mul_le hc).mp (by omega)
  have h2 : (i + 1) * c = i * c + c := by ring
  omega

/-- C9: with a positive chunk size, the byte ranges `_cloud_read_stream`
hands to `map_ordered` (and `read_stream_unordered` to `map_unordered`)
are exactly the chunks (i·c, min((i+1)·c, size)) for i below ⌈size/c⌉:
consecutive, non-overlapping and increasing, covering [0, size) exactly,
each except possibly the last of length exactly c, and empty when size is
0. -/
theorem read_stream_byte_ranges_exact (size c : Nat) (hc : 0 < c) :
    _cloud_read_stream_ranges size c =
      (List.range ((size + c - 1) / c)).map (fun i => (i * c, min ((i + 1) * c) size)) ∧
    read_stream_unordered_ranges size c = _cloud_read_stream_ranges size c ∧
    (∀ i, ∀ hi1 : i + 1 < (byteRanges size c).length,
      ((byteRanges size c).get ⟨i + 1, hi1⟩).1 =
        ((byteRanges size c).get ⟨i, by omega⟩).2) ∧
    (∀ i j, ∀ hij : i < j, ∀ hj : j < (byteRanges size c).length,
      ((byteRanges size c).get ⟨i, by omega⟩).2 ≤ ((byteRanges size c).get ⟨j, hj⟩).1) ∧
    (∀ n : Nat, n < size ↔ ∃ r ∈ byteRanges size c, r.1 ≤ n ∧ n < r.2) ∧
    (∀ i, ∀ hi1 : i + 1 < (byteRanges size c).length,
      ((byteRanges size c).get ⟨i, by omega⟩).2 -
        ((byteRanges size c).get ⟨i, by omega⟩).1 = c) ∧
    byteRanges 0 c = [] := by
  have hbr := byteRanges_eq size c hc
  have hlen : (byteRanges size c).length = (size + c - 1) / c := by
    rw [hbr]
    simp
  have hget : ∀ i, ∀ hi : i < (byteRanges size c).length,
      (byteRanges size c).get ⟨i, hi⟩ = (i * c, min ((i + 1) * c) size) := by
    intro i hi
    have hi2 : i < (size + c - 1) / c := by omega
    rw [List.get_eq_getElem]
    have : (byteRanges size c)[i]? = some (i * c, min ((i + 1) * c) size) := by
      rw [hbr, List.getElem?_map, List.getElem?_range hi2]
      rfl
    rw [List.getElem?_eq_getElem hi] at this
    exact Option.some_injective _ this
  have hchunk : ∀ i, i + 1 < (size + c - 1) / c → (i + 1) * c ≤ size := by
    intro i hi1
    have hle : (i + 2) * c ≤ size + c - 1 := (Nat.le_div_iff_mul_le hc).mp (by omega)
    have : (i + 2) * c = (i + 1) * c + c := by ring
    omega
  refine ⟨hbr, rfl, ?_, ?_, ?_, ?_, ?_⟩
  · intro i hi1
    rw [hget (i + 1) hi1, hget i (by omega)]
    have := hchunk i (by omega)
    simp only
    rw [Nat.min_eq_left this]
  · intro i j hij hj
    rw [hget i (by omega), hget j hj]
    simp only
    calc min ((i + 1) * c) size ≤ (i + 1) * c := Nat.min_le_left _ _
      _ ≤ j * c := Nat.mul_le_mul_right c (by omega)
  · intro n
    constructor
    · intro hn
      have hsz : 0 < size := by omega
      refine ⟨(n / c * c, min ((n / c + 1) * c) size), ?_, ?_, ?_⟩
      · rw [hbr]
        apply List.mem_map_of_mem
        apply List.mem_range.mpr
        have h1 : n / c ≤ (size - 1) / c := Nat.div_le_div_right (by omega)
        have h2 : (size - 1) / c < (size + c - 1) / c := by
          have he : size + c - 1 = (size - 1) + c := by omega
          rw [he, Nat.add_div_right _ hc]
          omega
        omega
      · exact Nat.div_mul_le_self n c
      · have hx : n < (n / c + 1) * c :=
          (Nat.div_lt_iff_lt_mul hc).mp (Nat.lt_succ_self _)
        omega
    · rintro ⟨r, hr, h1, h2⟩
      rw [hbr] at hr
      obtain ⟨i, _, hri⟩ := List.mem_map.mp hr
      rw [← hri] at h2
      simp only at h2
      have := Nat.min_le_right ((i + 1) * c) size
      omega
  · intro i hi1
    rw [hget i (by omega)]
    simp only
    have hx := hchunk i (by omega)
    have hmul : (i + 1) * c = i * c + c := by ring
    omega
  · have h0 : (0 + c - 1) / c = 0 := Nat.div_eq_of_lt (by omega)
    rw [byteRanges_eq 0 c hc, h0]
    rfl

/-- Witness for C9 at size 10, chunk 4 (ranges (0,4), (4,8), (8,10)). -/
theorem read_stream_byte_ranges_exact_witness :
    _cloud_read_stream_ranges 10 4 =
      (List.range ((10 + 4 - 1) / 4)).map (fun i => (i * 4, min ((i + 1) * 4) 10)) ∧
    read_stream_unordered_ranges 10 4 = _cloud_read_stream_ranges 10 4 ∧
    (∀ i, ∀ hi1 : i + 1 < (byteRanges 10 4).length,
      ((byteRanges 10 4).get ⟨i + 1, hi1⟩).1 = ((byteRanges 10 4).get ⟨i, by omega⟩).2) ∧
    (∀ i j, ∀ hij : i < j, ∀ hj : j < (byteRanges 10 4).length,
      ((byteRanges 10 4).get ⟨i, by omega⟩).2 ≤ ((byteRanges 10 4).get ⟨j, hj⟩).1) ∧
    (∀ n : Nat, n < 10 ↔ ∃ r ∈ byteRanges 10 4, r.1 ≤ n ∧ n < r.2) ∧
    (∀ i, ∀ hi1 : i + 1 < (byteRanges 10 4).length,
      ((byteRanges 10 4).get ⟨i, by omega⟩).2 - ((byteRanges 10 4).get ⟨i, by omega⟩).1 = 4) ∧
    byteRanges 0 4 = [] :=
  read_stream_byte_ranges_exact 10 4 (by decide)

/-- C10: every byte range either cloud read stream builds has both
components present (never the `None` cases) with 0 ≤ start < end, so
`_byte_range_to_str` renders the half-open [start, end) as the inclusive
header "bytes={start}-{end-1}", and the final `raise AssertionError`
branch is unreachable on these inputs. -/
theorem byte_range_to_str_of_ranges (size c : Nat) (hc : 0 < c) :
    ∀ br ∈ _cloud_read_stream_ranges size c,
      br ∈ read_stream_unordered_ranges size c ∧
      (0 : Int) ≤ (br.1 : Int) ∧ (br.1 : Int) < (br.2 : Int) ∧
      _byte_range_to_str (some (br.1 : Int), some (br.2 : Int)) =
        some ("bytes=" ++ toString (br.1 : Int) ++ "-" ++ toString ((br.2 : Int) - 1)) := by
  intro br hbr
  have hmem : br ∈ byteRanges size c := hbr
  rw [byteRanges_eq size c hc] at hmem
  obtain ⟨i, hir, hbe⟩ := List.mem_map.mp hmem
  rw [List.mem_range] at hir
  have hlt : br.1 < br.2 := by
    rw [← hbe]
    simp only
    have h1 : i * c < size := byteRanges_start_lt size c hc hir
    have h2 : i * c < (i + 1) * c := by
      have : (i + 1) * c = i * c + c := by ring
      omega
    exact Nat.lt_min.mpr ⟨h2, h1⟩
  refine ⟨hbr, Int.ofNat_nonneg br.1, by exact_mod_cast hlt, rfl⟩

/-- Witness for C10 at the first range of size 10, chunk 4. -/
theorem byte_range_to_str_of_ranges_witness :
    ((0, 4) : Nat × Nat) ∈ read_stream_unordered_ranges 10 4 ∧
    (0 : Int) ≤ (((0, 4) : Nat × Nat).1 : Int) ∧
    ((((0, 4) : Nat × Nat).1 : Int)) < ((((0, 4) : Nat × Nat).2 : Int)) ∧
    _byte_range_to_str
        (some ((((0, 4) : Nat × Nat).1 : Int)), some ((((0, 4) : Nat × Nat).2 : Int))) =
      some ("bytes=" ++ toString ((((0, 4) : Nat × Nat).1 : Int)) ++ "-" ++
        toString (((((0, 4) : Nat × Nat).2 : Int)) - 1)) :=
  byte_range_to_str_of_ranges 10 4 (by decide) (0, 4) (by decide)

end Boostedblob
